import Mathlib

/-!
Verification of the `currencyinfo` library (`src/dist/currencyinfo.mjs`)
against its natural-language specification.

The JavaScript source is shallowly embedded:

* JS numbers that flow through `strip`/`format`/`detect` are modelled as
  `Option ℚ`, with `none` playing the role of `NaN` (the code treats `NaN`
  purely as a "no parse" sentinel, never as an arithmetic value).
* Strings are Lean `String`s; the character-level work (the `RegExp`
  replacements built by `regexSeparators`, `String.match` counting,
  `String.indexOf`) is implemented on `List Char`.
* The external Locale-Aware Formatting Service (ECMAScript `Intl`) is not
  part of the repository; it is modelled from the spec (§2, §6) by a fixed
  table of locale/currency rendering facts (`LSpec`, `specTable`) together
  with an executable renderer (`LSpec.renderCents`, `LSpec.renderParts`)
  producing grouped digits, a decimal separator, two fraction digits and a
  leading or trailing currency symbol, and a `Number`-style parser
  (`parseNum`) for the final `Number(...)` coercion inside `strip`.
* Exceptions are modelled with `Except` / explicit outcome types.
-/

namespace Currencyinfo

/-- Decimal digit characters; used to state charset facts about rendered
numbers. -/
def digitChars : List Char := ['0','1','2','3','4','5','6','7','8','9']

/-- Character of a single decimal digit (`d < 10`; larger inputs clamp). -/
def digitChar (d : ℕ) : Char := digitChars.getD d '9'

/-- Numeric value of a digit character, as in JS `c.charCodeAt(0) - 48`. -/
def charVal (c : Char) : ℕ := c.toNat - 48

theorem digitChar_mem (d : ℕ) : digitChar d ∈ digitChars := by
  by_cases h : d < digitChars.length
  · simp only [digitChar, List.getD_eq_getElem?_getD, List.getElem?_eq_getElem h,
      Option.getD_some]
    exact List.getElem_mem _
  · simp [digitChar, List.getD_eq_getElem?_getD, List.getElem?_eq_none (le_of_not_lt h)]
    decide

theorem charVal_digitChar {d : ℕ} (h : d < 10) : charVal (digitChar d) = d := by
  interval_cases d <;> decide

theorem digit_not_special {c : Char} (h : c ∈ digitChars) :
    c ≠ '-' ∧ c ≠ '+' ∧ c ≠ '.' ∧ c ≠ ' ' := by
  fin_cases h <;> decide

/-- Big-endian decimal digits of a natural number, with explicit fuel so that
the kernel can evaluate it structurally. -/
def decDigitsGo : ℕ → ℕ → List Char
  | 0, _ => []
  | fuel + 1, n => if n < 10 then [digitChar n] else decDigitsGo fuel (n / 10) ++ [digitChar (n % 10)]

/-- Big-endian decimal digits of a natural number (`decDigits 1234 = "1234"`,
`decDigits 0 = "0"`). -/
def decDigits (n : ℕ) : List Char := decDigitsGo (n + 1) n

theorem decDigitsGo_congr : ∀ n f₁ f₂, n < f₁ → n < f₂ → decDigitsGo f₁ n = decDigitsGo f₂ n := by
  intro n
  induction n using Nat.strong_induction_on with
  | _ n ih =>
    intro f₁ f₂ h₁ h₂
    match f₁, f₂ with
    | g₁ + 1, g₂ + 1 =>
      simp only [decDigitsGo]
      by_cases hn : n < 10
      · simp [hn]
      · have hdn : n / 10 < n := Nat.div_lt_self (by omega) (by omega)
        simp only [hn, if_false]
        rw [ih (n / 10) hdn g₁ g₂ (by omega) (by omega)]

/-- Unfolding equation for `decDigits`. -/
theorem decDigits_eq (n : ℕ) :
    decDigits n = if n < 10 then [digitChar n] else decDigits (n / 10) ++ [digitChar (n % 10)] := by
  by_cases hn : n < 10
  · simp [decDigits, decDigitsGo, hn]
  · have hdn : n / 10 < n := Nat.div_lt_self (by omega) (by omega)
    rw [if_neg hn]
    have h1 : decDigits n = decDigitsGo n (n / 10) ++ [digitChar (n % 10)] := by
      simp only [decDigits, decDigitsGo, hn, if_false]
    rw [h1, decDigitsGo_congr (n / 10) n (n / 10 + 1) hdn (by omega)]
    rfl

theorem decDigits_ne_nil (n : ℕ) : decDigits n ≠ [] := by
  rw [decDigits_eq]
  by_cases hn : n < 10 <;> simp [hn]

theorem mem_decDigits {n : ℕ} {c : Char} (h : c ∈ decDigits n) : c ∈ digitChars := by
  induction n using Nat.strong_induction_on with
  | _ n ih =>
    rw [decDigits_eq] at h
    by_cases hn : n < 10
    · rw [if_pos hn, List.mem_singleton] at h
      subst h; exact digitChar_mem n
    · rw [if_neg hn, List.mem_append, List.mem_singleton] at h
      rcases h with h | h
      · exact ih (n / 10) (Nat.div_lt_self (by omega) (by omega)) h
      · subst h; exact digitChar_mem (n % 10)

/-- Digit-string length bound: `n < 10 ^ k` gives at most `k` digits
(for `n > 0`; `decDigits 0 = "0"` has one digit). -/
theorem length_decDigits_le {n k : ℕ} (hk : 1 ≤ k) (h : n < 10 ^ k) :
    (decDigits n).length ≤ k := by
  induction k generalizing n with
  | zero => omega
  | succ k ihk =>
    rw [decDigits_eq]
    by_cases hn : n < 10
    · rw [if_pos hn]; simp
    · have hk1 : 1 ≤ k := by
        by_contra hk0
        have : k = 0 := by omega
        subst this
        simp at h; omega
      have hdiv : n / 10 < 10 ^ k := by
        rw [Nat.div_lt_iff_lt_mul (by omega)]
        calc n < 10 ^ (k + 1) := h
        _ = 10 ^ k * 10 := by ring
      simp only [hn, if_false, List.length_append, List.length_singleton]
      have := ihk hk1 hdiv
      omega

/-- Value of a digit string read left to right, as JS `Number` reads the
integer or fraction part of a decimal literal. -/
def natVal (ds : List Char) : ℕ := ds.foldl (fun a c => 10 * a + charVal c) 0

theorem natVal_foldl_from (ds : List Char) :
    ∀ a : ℕ, ds.foldl (fun a c => 10 * a + charVal c) a = a * 10 ^ ds.length + natVal ds := by
  induction ds with
  | nil => intro a; simp [natVal]
  | cons c cs ih =>
    intro a
    simp only [List.foldl_cons, List.length_cons, natVal]
    rw [ih (10 * a + charVal c), ih (10 * 0 + charVal c)]
    ring

theorem natVal_append (a b : List Char) :
    natVal (a ++ b) = natVal a * 10 ^ b.length + natVal b := by
  rw [natVal, List.foldl_append, natVal_foldl_from]
  rfl

theorem natVal_decDigits (n : ℕ) : natVal (decDigits n) = n := by
  induction n using Nat.strong_induction_on with
  | _ n ih =>
    rw [decDigits_eq]
    by_cases hn : n < 10
    · rw [if_pos hn]
      simp [natVal, charVal_digitChar hn]
    · rw [if_neg hn, natVal_append, ih (n / 10) (Nat.div_lt_self (by omega) (by omega))]
      have h10 : n % 10 < 10 := Nat.mod_lt _ (by omega)
      simp [natVal, charVal_digitChar h10]
      omega

theorem natVal_replicate_zero (m : ℕ) (ds : List Char) :
    natVal (List.replicate m '0' ++ ds) = natVal ds := by
  rw [natVal_append]
  have hz : natVal (List.replicate m '0') = 0 := by
    induction m with
    | zero => rfl
    | succ m ihm =>
      rw [List.replicate_succ]
      have := natVal_foldl_from (List.replicate m '0') (10 * 0 + charVal '0')
      simp only [natVal, List.foldl_cons] at *
      rw [this]
      simp [charVal] at *
      omega
  rw [hz]; ring_nf

/-- Fraction digits zero-padded on the left to width `k` (Intl always renders
the fraction with a fixed number of digits; also used for `Number` printing). -/
def padDigits (k r : ℕ) : List Char := List.replicate (k - (decDigits r).length) '0' ++ decDigits r

theorem natVal_padDigits (k r : ℕ) : natVal (padDigits k r) = r := by
  rw [padDigits, natVal_replicate_zero, natVal_decDigits]

theorem mem_padDigits {k r : ℕ} {c : Char} (h : c ∈ padDigits k r) : c ∈ digitChars := by
  rw [padDigits, List.mem_append] at h
  rcases h with h | h
  · rw [List.eq_of_mem_replicate h]; decide
  · exact mem_decDigits h

theorem length_padDigits {k r : ℕ} (hk : 1 ≤ k) (h : r < 10 ^ k) :
    (padDigits k r).length = k := by
  have hle := length_decDigits_le hk h
  simp [padDigits]
  omega

theorem padDigits_ne_nil (k r : ℕ) : padDigits k r ≠ [] := by
  simp [padDigits, decDigits_ne_nil]

/-!  Character-level models of the JS string operations used by `strip`,
`detect` and `symbolPosition`:

* `removeClass cls` is `String.replace(new RegExp('[cls]', 'g'), '')`;
* `replaceClass cls r` is `String.replace(new RegExp('[cls]', 'g'), r)`;
* `removeSub pat` is `String.replace(new RegExp(escaped pat, 'g'), '')`
  for a multi-character literal pattern (non-overlapping, left to right);
* `countClassMatches` / `countSub` are `String.match(...)?.length ?? 0`;
* `indexOfSub` is `String.indexOf`;
* `trimSpaces` is the whitespace trim JS `Number(...)` performs. -/

def removeClass (cls : List Char) (s : List Char) : List Char :=
  s.filter (fun c => !decide (c ∈ cls))

def replaceClass (cls : List Char) (r : Char) (s : List Char) : List Char :=
  s.map (fun c => if c ∈ cls then r else c)

def removeSubGo (pat : List Char) : ℕ → List Char → List Char
  | 0, _ => []
  | _ + 1, [] => []
  | fuel + 1, c :: cs =>
    if pat ≠ [] ∧ pat.isPrefixOf (c :: cs) then
      removeSubGo pat fuel ((c :: cs).drop pat.length)
    else
      c :: removeSubGo pat fuel cs

def removeSub (pat s : List Char) : List Char := removeSubGo pat s.length s

def countSubGo (pat : List Char) : ℕ → List Char → ℕ
  | 0, _ => 0
  | _ + 1, [] => 0
  | fuel + 1, c :: cs =>
    if pat ≠ [] ∧ pat.isPrefixOf (c :: cs) then
      1 + countSubGo pat fuel ((c :: cs).drop pat.length)
    else
      countSubGo pat fuel cs

def countSub (pat s : List Char) : ℕ := countSubGo pat s.length s

theorem removeSubGo_congr (pat : List Char) :
    ∀ n s f₁ f₂, s.length ≤ n → s.length ≤ f₁ → s.length ≤ f₂ →
      removeSubGo pat f₁ s = removeSubGo pat f₂ s := by
  intro n
  induction n using Nat.strong_induction_on with
  | _ n ih =>
    intro s f₁ f₂ hn h₁ h₂
    cases s with
    | nil =>
      cases f₁ <;> cases f₂ <;> rfl
    | cons c cs =>
      have hn0 : 0 < n := lt_of_lt_of_le (by simp) hn
      match f₁, f₂, h₁, h₂ with
      | g₁ + 1, g₂ + 1, h₁, h₂ =>
        show (if pat ≠ [] ∧ pat.isPrefixOf (c :: cs) then
            removeSubGo pat g₁ ((c :: cs).drop pat.length)
          else c :: removeSubGo pat g₁ cs) =
          (if pat ≠ [] ∧ pat.isPrefixOf (c :: cs) then
            removeSubGo pat g₂ ((c :: cs).drop pat.length)
          else c :: removeSubGo pat g₂ cs)
        have hcs : cs.length ≤ n - 1 := by
          simp only [List.length_cons] at hn
          omega
        by_cases h : pat ≠ [] ∧ pat.isPrefixOf (c :: cs)
        · rw [if_pos h, if_pos h]
          rcases pat with _ | ⟨p, ps⟩
          · exact absurd rfl h.1
          · have hd : ((c :: cs).drop (p :: ps).length).length ≤ cs.length := by
              simp only [List.length_drop, List.length_cons]
              omega
            exact ih (n - 1) (by omega) _ g₁ g₂ (le_trans hd hcs)
              (le_trans hd (by simp only [List.length_cons] at h₁; omega))
              (le_trans hd (by simp only [List.length_cons] at h₂; omega))
        · rw [if_neg h, if_neg h]
          rw [ih (n - 1) (by omega) cs g₁ g₂ hcs
            (by simp only [List.length_cons] at h₁; omega)
            (by simp only [List.length_cons] at h₂; omega)]

theorem removeSub_cons (pat : List Char) (c : Char) (cs : List Char) :
    removeSub pat (c :: cs) =
      if pat ≠ [] ∧ pat.isPrefixOf (c :: cs) then removeSub pat ((c :: cs).drop pat.length)
      else c :: removeSub pat cs := by
  have h1 : removeSub pat (c :: cs) =
      if pat ≠ [] ∧ pat.isPrefixOf (c :: cs) then
        removeSubGo pat cs.length ((c :: cs).drop pat.length)
      else c :: removeSubGo pat cs.length cs := rfl
  rw [h1]
  by_cases h : pat ≠ [] ∧ pat.isPrefixOf (c :: cs)
  · rw [if_pos h, if_pos h, removeSub]
    rcases pat with _ | ⟨p, ps⟩
    · exact absurd rfl h.1
    · exact removeSubGo_congr _ cs.length _ _ _
        (by simp only [List.length_drop, List.length_cons]; omega)
        (by simp only [List.length_drop, List.length_cons]; omega) (le_refl _)
  · rw [if_neg h, if_neg h]
    rfl

def countClassMatches (cls : List Char) (s : List Char) : ℕ :=
  (s.filter (fun c => decide (c ∈ cls))).length

def indexOfSub (pat : List Char) : List Char → Option ℕ
  | [] => if pat.isPrefixOf ([] : List Char) then some 0 else none
  | c :: cs => if pat.isPrefixOf (c :: cs) then some 0 else (indexOfSub pat cs).map (· + 1)

def trimSpaces (s : List Char) : List Char :=
  ((s.dropWhile (fun c => c == ' ')).reverse.dropWhile (fun c => c == ' ')).reverse

/-- Thousands grouping: inserts the group separator `g` every three digits,
counted from the right (`group3Go ',' "1234567" = "1,234,567"`). -/
def group3Go (g : Char) : List Char → List Char
  | [] => []
  | c :: cs => c :: (if cs.length % 3 = 0 ∧ cs ≠ [] then g :: group3Go g cs else group3Go g cs)

/-- Chunks of three characters counted from the right, used to build the
`formatToParts`-style typed parts sequence. -/
def chunkRevGo : ℕ → List Char → List (List Char)
  | 0, _ => []
  | _ + 1, [] => []
  | fuel + 1, c :: cs => ((c :: cs).take 3) :: chunkRevGo fuel ((c :: cs).drop 3)

def chunkRev (l : List Char) : List (List Char) := chunkRevGo l.length l

def chunkRight (ds : List Char) : List (List Char) :=
  ((chunkRev ds.reverse).map List.reverse).reverse

theorem removeClass_append (cls a b : List Char) :
    removeClass cls (a ++ b) = removeClass cls a ++ removeClass cls b := by
  simp [removeClass]

theorem removeClass_eq_self {cls s : List Char} (h : ∀ c ∈ s, c ∉ cls) :
    removeClass cls s = s := by
  rw [removeClass, List.filter_eq_self]
  intro c hc
  simp [h c hc]

theorem removeClass_cons_mem {cls : List Char} {c : Char} {s : List Char} (h : c ∈ cls) :
    removeClass cls (c :: s) = removeClass cls s := by
  simp [removeClass, h]

theorem replaceClass_append (cls : List Char) (r : Char) (a b : List Char) :
    replaceClass cls r (a ++ b) = replaceClass cls r a ++ replaceClass cls r b := by
  simp [replaceClass]

theorem replaceClass_eq_self {cls : List Char} {r : Char} {s : List Char}
    (h : ∀ c ∈ s, c ∉ cls) : replaceClass cls r s = s := by
  rw [replaceClass]
  conv_rhs => rw [← List.map_id s]
  refine List.map_congr_left ?_
  intro c hc
  simp [h c hc]

theorem replaceClass_singleton_self (r : Char) (s : List Char) :
    replaceClass [r] r s = s := by
  rw [replaceClass]
  conv_rhs => rw [← List.map_id s]
  refine List.map_congr_left ?_
  intro c _
  by_cases hc : c ∈ [r]
  · rw [if_pos hc]
    exact (List.mem_singleton.mp hc).symm
  · rw [if_neg hc]
    rfl

theorem isPrefixOf_head_ne {p c : Char} {pt cs : List Char} (h : p ≠ c) :
    (p :: pt).isPrefixOf (c :: cs) = false := by
  simp [List.isPrefixOf, h]

theorem removeSub_of_head_not_mem {p : Char} (pt : List Char) :
    ∀ {s : List Char}, p ∉ s → removeSub (p :: pt) s = s := by
  intro s
  induction s with
  | nil => intro _; rfl
  | cons c cs ih =>
    intro h
    have hpc : p ≠ c := fun hh => h (hh ▸ List.mem_cons_self c cs)
    rw [removeSub_cons, if_neg (by rw [isPrefixOf_head_ne hpc]; simp)]
    rw [ih (fun hm => h (List.mem_cons_of_mem c hm))]

theorem isPrefixOf_append_self (pat s : List Char) : pat.isPrefixOf (pat ++ s) = true := by
  rw [List.isPrefixOf_iff_prefix]
  exact List.prefix_append pat s

theorem removeSub_clean {p : Char} (pt : List Char) :
    ∀ (s₁ : List Char) {s₂ : List Char}, p ∉ s₁ → p ∉ s₂ →
      removeSub (p :: pt) (s₁ ++ (p :: pt) ++ s₂) = s₁ ++ s₂ := by
  intro s₁
  induction s₁ with
  | nil =>
    intro s₂ _ h₂
    simp only [List.nil_append, List.cons_append]
    rw [removeSub_cons]
    rw [if_pos ⟨List.cons_ne_nil p pt, by
      rw [← List.cons_append]
      exact isPrefixOf_append_self (p :: pt) s₂⟩]
    rw [show (p :: (pt ++ s₂)).drop (p :: pt).length = s₂ from by
      rw [← List.cons_append]
      exact List.drop_left (p :: pt) s₂]
    exact removeSub_of_head_not_mem pt h₂
  | cons c cs ih =>
    intro s₂ h₁ h₂
    have hpc : p ≠ c := fun hh => h₁ (hh ▸ List.mem_cons_self c cs)
    simp only [List.cons_append]
    rw [removeSub_cons, if_neg (by rw [isPrefixOf_head_ne hpc]; simp)]
    rw [ih (fun hm => h₁ (List.mem_cons_of_mem c hm)) h₂]

theorem dropWhile_eq_self_of {p : Char → Bool} :
    ∀ {s : List Char}, (∀ c ∈ s, ¬ p c) → s.dropWhile p = s := by
  intro s
  cases s with
  | nil => intro _; rfl
  | cons c cs =>
    intro h
    rw [List.dropWhile_cons_of_neg]
    exact h c (List.mem_cons_self c cs)

theorem trimSpaces_eq_self {s : List Char} (h : ∀ c ∈ s, c ≠ ' ') : trimSpaces s = s := by
  have hb : ∀ c ∈ s, ¬ ((c == ' ') = true) := by
    intro c hc
    simp [h c hc]
  rw [trimSpaces, dropWhile_eq_self_of hb, dropWhile_eq_self_of, List.reverse_reverse]
  intro c hc
  exact hb c (List.mem_reverse.mp hc)

theorem trimSpaces_append_space {s : List Char} (h : ∀ c ∈ s, c ≠ ' ') :
    trimSpaces (s ++ [' ']) = s := by
  cases s with
  | nil => rfl
  | cons c cs =>
    have hfront : ((c :: cs) ++ [' ']).dropWhile (fun x => x == ' ') = (c :: cs) ++ [' '] := by
      rw [List.cons_append, List.dropWhile_cons]
      simp [h c (List.mem_cons_self c cs)]
    have hrev : ((c :: cs) ++ [' ']).reverse = ' ' :: (cs.reverse ++ [c]) := by simp
    rw [trimSpaces, hfront, hrev, List.dropWhile_cons]
    rw [if_pos (by decide)]
    rw [dropWhile_eq_self_of (by
      intro x hx
      rcases List.mem_append.mp hx with hx | hx
      · simp [h x (List.mem_cons_of_mem c (List.mem_reverse.mp hx))]
      · rw [List.mem_singleton] at hx
        simp [h x (hx ▸ List.mem_cons_self c cs)])]
    simp

theorem trimSpaces_clean {s tail : List Char} (h : ∀ c ∈ s, c ≠ ' ')
    (ht : tail = [] ∨ tail = [' ']) : trimSpaces (s ++ tail) = s := by
  rcases ht with rfl | rfl
  · rw [List.append_nil]; exact trimSpaces_eq_self h
  · exact trimSpaces_append_space h

theorem mem_group3Go {g c : Char} : ∀ {ds : List Char}, c ∈ group3Go g ds → c ∈ ds ∨ c = g := by
  intro ds
  induction ds with
  | nil => intro h; simp [group3Go] at h
  | cons d dt ih =>
    intro h
    rw [group3Go] at h
    rcases List.mem_cons.mp h with h | h
    · exact Or.inl (h ▸ List.mem_cons_self d dt)
    · by_cases hc : dt.length % 3 = 0 ∧ dt ≠ []
      · rw [if_pos hc] at h
        rcases List.mem_cons.mp h with h | h
        · exact Or.inr h
        · rcases ih h with h' | h'
          · exact Or.inl (List.mem_cons_of_mem d h')
          · exact Or.inr h'
      · rw [if_neg hc] at h
        rcases ih h with h' | h'
        · exact Or.inl (List.mem_cons_of_mem d h')
        · exact Or.inr h'

theorem removeClass_group3Go {g : Char} : ∀ {ds : List Char}, g ∉ ds →
    removeClass [g] (group3Go g ds) = ds := by
  intro ds
  induction ds with
  | nil => intro _; rfl
  | cons d dt ih =>
    intro h
    have hdg : d ∉ [g] := by
      rw [List.mem_singleton]
      intro hh
      exact h (hh ▸ List.mem_cons_self d dt)
    have hdt : g ∉ dt := fun hm => h (List.mem_cons_of_mem d hm)
    rw [group3Go]
    by_cases hc : dt.length % 3 = 0 ∧ dt ≠ []
    · rw [if_pos hc]
      rw [show (d :: (g :: group3Go g dt)) = [d] ++ (g :: group3Go g dt) from rfl]
      rw [removeClass_append, removeClass_cons_mem (List.mem_singleton.mpr rfl), ih hdt]
      rw [removeClass_eq_self (by intro x hx; rw [List.mem_singleton] at hx; exact hx ▸ hdg)]
      rfl
    · rw [if_neg hc]
      rw [show (d :: group3Go g dt) = [d] ++ group3Go g dt from rfl]
      rw [removeClass_append, ih hdt]
      rw [removeClass_eq_self (by intro x hx; rw [List.mem_singleton] at hx; exact hx ▸ hdg)]
      rfl

/-- Sign application for parsed numbers. -/
def signVal (neg : Bool) (q : ℚ) : ℚ := if neg then -q else q

/-- Unsigned part of the JS `Number(string)` coercion: digits with at most one
`'.'`; anything else is `NaN` (`none`). -/
def parseUnsigned (u : List Char) : Option ℚ :=
  if u.count '.' = 0 then
    if u ≠ [] ∧ ∀ c ∈ u, c ∈ digitChars then some ((natVal u : ℚ)) else none
  else if u.count '.' = 1 then
    let a := u.takeWhile (fun c => !(c == '.'))
    let b := u.drop (a.length + 1)
    if (a ++ b) ≠ [] ∧ ∀ c ∈ a ++ b, c ∈ digitChars then
      some (Rat.divInt ((natVal a : ℤ) * 10 ^ b.length + (natVal b : ℤ)) (10 ^ b.length))
    else none
  else none

/-- Model of the JS `Number(string)` coercion on the string shapes `strip` can
produce: leading/trailing whitespace is trimmed, the empty string is `0`, one
optional leading sign, then an optional-dot decimal literal.  (JS `Number`
also accepts hex/exponent forms; those never arise from currency strings and
are conservatively `NaN` here.) -/
def parseNum (s : List Char) : Option ℚ :=
  let t := trimSpaces s
  if t = [] then some 0
  else
    let neg : Bool := t.head? == some '-'
    let u := if (t.head? == some '-') || (t.head? == some '+') then t.tail else t
    (parseUnsigned u).map (signVal neg)

theorem takeWhile_until {a : List Char} (b : List Char) (ha : ∀ c ∈ a, c ≠ '.') :
    (a ++ '.' :: b).takeWhile (fun c => !(c == '.')) = a := by
  induction a with
  | nil =>
    rw [List.nil_append, List.takeWhile_cons]
    simp
  | cons c cs ih =>
    rw [List.cons_append, List.takeWhile_cons]
    have hc : (!(c == '.')) = true := by
      simp [ha c (List.mem_cons_self c cs)]
    rw [if_pos hc]
    rw [ih (fun x hx => ha x (List.mem_cons_of_mem c hx))]

theorem drop_after_dot {c : Char} (a b : List Char) : (a ++ c :: b).drop (a.length + 1) = b := by
  rw [show a ++ c :: b = (a ++ [c]) ++ b from by simp]
  rw [show a.length + 1 = (a ++ [c]).length from by simp]
  exact List.drop_left (a ++ [c]) b

theorem count_dot_clean {a b : List Char} (ha : ∀ c ∈ a, c ∈ digitChars)
    (hb : ∀ c ∈ b, c ∈ digitChars) : (a ++ '.' :: b).count '.' = 1 := by
  rw [List.count_append, List.count_cons_self]
  rw [List.count_eq_zero.mpr (fun hm => (digit_not_special (ha '.' hm)).2.2.1 rfl)]
  rw [List.count_eq_zero.mpr (fun hm => (digit_not_special (hb '.' hm)).2.2.1 rfl)]

theorem divInt_dec_val (a b l : ℕ) :
    Rat.divInt ((a : ℤ) * 10 ^ l + (b : ℤ)) (10 ^ l) = (a : ℚ) + (b : ℚ) / 10 ^ l := by
  rw [Rat.divInt_eq_div]
  have h10 : ((10 : ℚ)) ^ l ≠ 0 := by positivity
  push_cast
  field_simp

theorem parseUnsigned_dec {a b : List Char} (ha : ∀ c ∈ a, c ∈ digitChars)
    (hb : ∀ c ∈ b, c ∈ digitChars) (hane : a ≠ []) :
    parseUnsigned (a ++ '.' :: b) = some ((natVal a : ℚ) + (natVal b : ℚ) / 10 ^ b.length) := by
  have hcount := count_dot_clean ha hb
  have hta := takeWhile_until b (fun c hc => (digit_not_special (ha c hc)).2.2.1)
  rw [parseUnsigned]
  rw [if_neg (by simp [hcount])]
  rw [if_pos hcount]
  simp only [hta, drop_after_dot a b]
  rw [if_pos ⟨by simp [hane], by
    intro c hc
    rcases List.mem_append.mp hc with hc | hc
    · exact ha c hc
    · exact hb c hc⟩]
  rw [divInt_dec_val]

theorem parseUnsigned_int {a : List Char} (ha : ∀ c ∈ a, c ∈ digitChars) (hane : a ≠ []) :
    parseUnsigned a = some ((natVal a : ℚ)) := by
  rw [parseUnsigned]
  rw [if_pos (List.count_eq_zero.mpr (fun hm => (digit_not_special (ha '.' hm)).2.2.1 rfl))]
  rw [if_pos ⟨hane, ha⟩]

theorem parseNum_eq_of_clean {x tail : List Char} (hx : ∀ c ∈ x, c ≠ ' ') (hxne : x ≠ [])
    (ht : tail = [] ∨ tail = [' ']) :
    parseNum (x ++ tail) =
      (parseUnsigned (if (x.head? == some '-') || (x.head? == some '+') then x.tail else x)).map
        (signVal (x.head? == some '-')) := by
  simp only [parseNum]
  rw [trimSpaces_clean hx ht]
  rw [if_neg hxne]

/-- `Number` on a clean unsigned decimal string (optionally followed by one
trailing space, as left behind by stripping a trailing currency symbol). -/
theorem parseNum_dec_pos (a b tail : List Char)
    (ha : ∀ c ∈ a, c ∈ digitChars) (hb : ∀ c ∈ b, c ∈ digitChars)
    (hane : a ≠ []) (ht : tail = [] ∨ tail = [' ']) :
    parseNum ((a ++ '.' :: b) ++ tail) =
      some ((natVal a : ℚ) + (natVal b : ℚ) / 10 ^ b.length) := by
  rcases List.exists_cons_of_ne_nil hane with ⟨c, a', rfl⟩
  have hcd := digit_not_special (ha c (List.mem_cons_self c a'))
  have hxs : ∀ x ∈ (c :: a') ++ '.' :: b, x ≠ ' ' := by
    intro x hx
    rcases List.mem_append.mp hx with hx | hx
    · exact (digit_not_special (ha x hx)).2.2.2
    · rcases List.mem_cons.mp hx with hx | hx
      · subst hx; decide
      · exact (digit_not_special (hb x hx)).2.2.2
  rw [parseNum_eq_of_clean hxs (by simp) ht]
  rw [show ((c :: a') ++ '.' :: b).head? = some c from by simp]
  rw [show (some c == some '-') = false from by simp [hcd.1]]
  rw [show (some c == some '+') = false from by simp [hcd.2.1]]
  rw [if_neg (by simp)]
  rw [parseUnsigned_dec ha hb hane]
  simp [signVal]

/-- `Number` on a clean negative decimal string. -/
theorem parseNum_dec_neg (a b tail : List Char)
    (ha : ∀ c ∈ a, c ∈ digitChars) (hb : ∀ c ∈ b, c ∈ digitChars)
    (hane : a ≠ []) (ht : tail = [] ∨ tail = [' ']) :
    parseNum (('-' :: (a ++ '.' :: b)) ++ tail) =
      some (-((natVal a : ℚ) + (natVal b : ℚ) / 10 ^ b.length)) := by
  have hxs : ∀ x ∈ '-' :: (a ++ '.' :: b), x ≠ ' ' := by
    intro x hx
    rcases List.mem_cons.mp hx with hx | hx
    · subst hx; decide
    · rcases List.mem_append.mp hx with hx | hx
      · exact (digit_not_special (ha x hx)).2.2.2
      · rcases List.mem_cons.mp hx with hx | hx
        · subst hx; decide
        · exact (digit_not_special (hb x hx)).2.2.2
  rw [parseNum_eq_of_clean hxs (by simp) ht]
  simp only [List.head?_cons, List.tail_cons]
  rw [show ((some '-' == some '-') || (some '-' == some '+')) = true from by decide]
  rw [if_pos rfl]
  rw [parseUnsigned_dec ha hb hane]
  rw [show (some '-' == some '-') = true from by decide]
  simp [signVal]

/-- `Number` on a clean unsigned integer string. -/
theorem parseNum_int_pos (a tail : List Char)
    (ha : ∀ c ∈ a, c ∈ digitChars) (hane : a ≠ []) (ht : tail = [] ∨ tail = [' ']) :
    parseNum (a ++ tail) = some ((natVal a : ℚ)) := by
  rcases List.exists_cons_of_ne_nil hane with ⟨c, a', rfl⟩
  have hcd := digit_not_special (ha c (List.mem_cons_self c a'))
  have hxs : ∀ x ∈ c :: a', x ≠ ' ' := by
    intro x hx
    exact (digit_not_special (ha x hx)).2.2.2
  rw [parseNum_eq_of_clean hxs (by simp) ht]
  rw [show (c :: a').head? = some c from by simp]
  rw [show (some c == some '-') = false from by simp [hcd.1]]
  rw [show (some c == some '+') = false from by simp [hcd.2.1]]
  rw [if_neg (by simp)]
  rw [parseUnsigned_int ha hane]
  simp [signVal]

/-- `Number` on a clean negative integer string. -/
theorem parseNum_int_neg (a tail : List Char)
    (ha : ∀ c ∈ a, c ∈ digitChars) (hane : a ≠ []) (ht : tail = [] ∨ tail = [' ']) :
    parseNum (('-' :: a) ++ tail) = some (-(natVal a : ℚ)) := by
  have hxs : ∀ x ∈ '-' :: a, x ≠ ' ' := by
    intro x hx
    rcases List.mem_cons.mp hx with hx | hx
    · subst hx; decide
    · exact (digit_not_special (ha x hx)).2.2.2
  rw [parseNum_eq_of_clean hxs (by simp) ht]
  simp only [List.head?_cons, List.tail_cons]
  rw [show ((some '-' == some '-') || (some '-' == some '+')) = true from by decide]
  rw [if_pos rfl]
  rw [parseUnsigned_int ha hane]
  rw [show (some '-' == some '-') = true from by decide]
  simp [signVal]

/-- Rendering facts for one (currency, locale) pair, as produced by the
Locale-Aware Formatting Service.  Modelled from the spec (§2, §6): the
service renders a number with a grouping separator every three integer
digits, a decimal separator, two fraction digits, and the currency symbol
either leading (no gap) or trailing after one space. -/
structure LSpec where
  group : Char
  decimal : Char
  symbol : String
  trailing : Bool
deriving DecidableEq, Repr

/-- Cents value rendered by the Formatting Service: the amount rounded to two
fraction digits (the spec fixes two fraction digits; the rounding mode is a
service detail).  Written as an integer floor division so that the kernel
can evaluate it; `round2cents_eq` identifies it with `round (q * 100)`. -/
def round2cents (q : ℚ) : ℤ := (200 * q.num + (q.den : ℤ)) / (2 * (q.den : ℤ))

/-- The same rounding stated back at the amount level. -/
def round2 (q : ℚ) : ℚ := Rat.divInt (round2cents q) 100

/-- `Intl.NumberFormat(locale, {style: currency}).format` on a non-`NaN`
amount, at the cents level. -/
def LSpec.renderCents (sp : LSpec) (c : ℤ) : List Char :=
  let n := c.natAbs
  let core := group3Go sp.group (decDigits (n / 100)) ++ sp.decimal :: padDigits 2 (n % 100)
  let sign := if c < 0 then ['-'] else []
  if sp.trailing then sign ++ core ++ ' ' :: sp.symbol.data
  else sign ++ sp.symbol.data ++ core

/-- `Intl.NumberFormat(...).format`: `NaN` renders as the symbol-decorated
string `"NaN"` (e.g. `"$NaN"`), any number as its rounded rendering. -/
def LSpec.render (sp : LSpec) (v : Option ℚ) : String :=
  match v with
  | none =>
    if sp.trailing then String.mk ('N' :: 'a' :: 'N' :: ' ' :: sp.symbol.data)
    else String.mk (sp.symbol.data ++ ['N', 'a', 'N'])
  | some q => String.mk (sp.renderCents (round2cents q))

/-- The three `regexSeparators` replacements of `strip`, in source order:
remove every group-class match, replace every decimal-class match with `'.'`,
then remove the symbol — a single-character symbol as a character class, a
longer symbol as a literal substring (source lines 134-141 and 162-168). -/
def stripPipeline (gcls dcls : List Char) (symbol : String) (s : List Char) : List Char :=
  let s1 := removeClass gcls s
  let s2 := replaceClass dcls '.' s1
  if symbol.length < 2 then removeClass symbol.data s2 else removeSub symbol.data s2

/-- Side conditions under which a rendering spec's separators and symbol do
not collide with digits, the sign, the canonical dot or each other.  Every
spec in the model table satisfies this (checked by `decide`).  Real-world
locales that violate it (for example a grouping dot combined with a
dot-containing symbol, as in `da-DK`) genuinely break the library's
round-trip, so they are outside the model. -/
def GoodSpec (sp : LSpec) : Prop :=
  sp.group ∉ digitChars ∧ sp.group ≠ '-' ∧ sp.group ≠ '.' ∧ sp.group ≠ sp.decimal ∧
  sp.group ∉ sp.symbol.data ∧
  sp.decimal ∉ digitChars ∧ sp.decimal ≠ '-' ∧ sp.decimal ≠ ' ' ∧
  (sp.decimal ∈ sp.symbol.data → sp.decimal = '.') ∧
  sp.symbol.data ≠ [] ∧
  sp.symbol.data.headI ∉ digitChars ∧ sp.symbol.data.headI ≠ '.' ∧
  sp.symbol.data.headI ≠ '-' ∧ sp.symbol.data.headI ≠ ' '

instance (sp : LSpec) : Decidable (GoodSpec sp) := by
  unfold GoodSpec
  infer_instance

/-- Pure-characters strings (digits, dot, sign) pass through the strip
pipeline unchanged under `GoodSpec`. -/
theorem stripPipeline_clean {sp : LSpec} (hgs : GoodSpec sp) {x : List Char}
    (hx : ∀ ch ∈ x, ch ∈ digitChars ∨ ch = '.' ∨ ch = '-') :
    stripPipeline [sp.group] [sp.decimal] sp.symbol x = x := by
  obtain ⟨hg1, hg2, hg3, hg4, hg5, hd1, hd2, hd3, hds, hsne, hh1, hh2, hh3, hh4⟩ := hgs
  have hchar : ∀ ch ∈ x, ch ≠ sp.group ∧ (sp.decimal ≠ '.' → ch ≠ sp.decimal) ∧
      ch ≠ sp.symbol.data.headI := by
    intro ch hc
    rcases hx ch hc with hc' | hc' | hc'
    · exact ⟨fun he => hg1 (he ▸ hc'), fun _ he => hd1 (he ▸ hc'),
        fun he => hh1 (he ▸ hc')⟩
    · subst hc'
      exact ⟨fun he => hg3 he.symm, fun hne he => hne he.symm, fun he => hh2 he.symm⟩
    · subst hc'
      exact ⟨fun he => hg2 he.symm, fun _ he => hd2 he.symm, fun he => hh3 he.symm⟩
  have h1 : removeClass [sp.group] x = x := removeClass_eq_self (by
    intro ch hc
    rw [List.mem_singleton]
    exact (hchar ch hc).1)
  have h2 : replaceClass [sp.decimal] '.' x = x := by
    by_cases hdd : sp.decimal = '.'
    · rw [hdd]
      exact replaceClass_singleton_self '.' x
    · exact replaceClass_eq_self (by
        intro ch hc
        rw [List.mem_singleton]
        exact (hchar ch hc).2.1 hdd)
  rw [stripPipeline, h1, h2]
  by_cases hlen : sp.symbol.length < 2
  · rw [if_pos hlen]
    rcases List.exists_cons_of_ne_nil hsne with ⟨y, ys, hy⟩
    have hys : ys = [] := by
      have : sp.symbol.length = sp.symbol.data.length := rfl
      rw [hy] at this
      simp at this
      cases ys with
      | nil => rfl
      | cons z zs =>
        rw [this] at hlen
        simp only [List.length_cons] at hlen
        omega
    subst hys
    rw [hy]
    refine removeClass_eq_self ?_
    intro ch hc
    rw [List.mem_singleton]
    have : sp.symbol.data.headI = y := by rw [hy]; rfl
    exact this ▸ (hchar ch hc).2.2
  · rw [if_neg hlen]
    rcases List.exists_cons_of_ne_nil hsne with ⟨y, ys, hy⟩
    rw [hy]
    refine removeSub_of_head_not_mem ys ?_
    intro hc
    have hhy : sp.symbol.data.headI = y := by rw [hy]; rfl
    exact (hchar y hc).2.2 hhy.symm

/-- Smallest decimal exponent (searched up to 20) whose power the denominator
divides; drives the `String(number)` printing model. -/
def kFor (d : ℕ) : Option ℕ := (List.range 21).find? (fun k => 10 ^ k % d == 0)

/-- Modelled from the spec: JS `String(number)` for the numeric amounts that
arise here.  Rationals with a power-of-ten denominator (the only amounts
`strip` and rounding can produce) print as minimal decimal literals; `NaN` is
handled by `numToStr`. -/
def numToChars (q : ℚ) : List Char :=
  match kFor q.den with
  | none => (if q.num < 0 then ['-'] else []) ++ decDigits q.num.natAbs
  | some k =>
    let m := q.num.natAbs * (10 ^ k / q.den)
    (if q.num < 0 then ['-'] else []) ++
      (if k = 0 then decDigits m
       else decDigits (m / 10 ^ k) ++ '.' :: padDigits k (m % 10 ^ k))

/-- JS `String(...)` on a number-or-`NaN` value. -/
def numToStr : Option ℚ → String
  | none => "NaN"
  | some q => String.mk (numToChars q)

theorem mem_numToChars {q : ℚ} {c : Char} (h : c ∈ numToChars q) :
    c ∈ digitChars ∨ c = '.' ∨ c = '-' := by
  have hsign : ∀ x ∈ (if q.num < 0 then ['-'] else ([] : List Char)), x = '-' := by
    intro x hx
    by_cases hq : q.num < 0
    · rw [if_pos hq, List.mem_singleton] at hx
      exact hx
    · rw [if_neg hq] at hx
      exact absurd hx (List.not_mem_nil x)
  rw [numToChars] at h
  rcases hk : kFor q.den with _ | k
  · rw [hk] at h
    rcases List.mem_append.mp h with h | h
    · exact Or.inr (Or.inr (hsign c h))
    · exact Or.inl (mem_decDigits h)
  · rw [hk] at h
    simp only at h
    rcases List.mem_append.mp h with h | h
    · exact Or.inr (Or.inr (hsign c h))
    · by_cases hk0 : k = 0
      · rw [if_pos hk0] at h
        exact Or.inl (mem_decDigits h)
      · rw [if_neg hk0] at h
        rcases List.mem_append.mp h with h | h
        · exact Or.inl (mem_decDigits h)
        · rcases List.mem_cons.mp h with h | h
          · exact Or.inr (Or.inl h)
          · exact Or.inl (mem_padDigits h)

theorem split_value (m e : ℕ) :
    ((m / 10 ^ e : ℕ) : ℚ) + ((m % 10 ^ e : ℕ) : ℚ) / 10 ^ e = (m : ℚ) / 10 ^ e := by
  have hq : (10 : ℚ) ^ e * ((m / 10 ^ e : ℕ) : ℚ) + ((m % 10 ^ e : ℕ) : ℚ) = (m : ℚ) := by
    exact_mod_cast Nat.div_add_mod m (10 ^ e)
  have h2 : ((10 : ℚ) ^ e) ≠ 0 := by positivity
  field_simp
  linarith [hq]

theorem parseNum_scaled_pos (N D k : ℕ) (hD0 : D ≠ 0) (hdvd : D ∣ 10 ^ k) :
    parseNum (if k = 0 then decDigits (N * (10 ^ k / D))
      else decDigits (N * (10 ^ k / D) / 10 ^ k) ++
        '.' :: padDigits k (N * (10 ^ k / D) % 10 ^ k)) =
      some ((N : ℚ) / (D : ℚ)) := by
  by_cases hk0 : k = 0
  · subst hk0
    have hD1 : D = 1 := Nat.dvd_one.mp (by simpa using hdvd)
    subst hD1
    rw [if_pos rfl]
    have hp := parseNum_int_pos (decDigits (N * (10 ^ 0 / 1))) [] (fun c hc => mem_decDigits hc)
      (decDigits_ne_nil _) (Or.inl rfl)
    rw [List.append_nil] at hp
    rw [hp, natVal_decDigits]
    norm_num
  · rw [if_neg hk0]
    have hk1 : 1 ≤ k := by omega
    have hmod : N * (10 ^ k / D) % 10 ^ k < 10 ^ k := Nat.mod_lt _ (by positivity)
    have hp := parseNum_dec_pos (decDigits (N * (10 ^ k / D) / 10 ^ k))
      (padDigits k (N * (10 ^ k / D) % 10 ^ k)) []
      (fun c hc => mem_decDigits hc) (fun c hc => mem_padDigits hc)
      (decDigits_ne_nil _) (Or.inl rfl)
    rw [List.append_nil] at hp
    rw [hp, natVal_decDigits, natVal_padDigits, length_padDigits hk1 hmod, split_value]
    congr 1
    rw [Nat.cast_mul, Nat.cast_div hdvd (by exact_mod_cast hD0)]
    have h10 : ((10 : ℚ)) ^ k ≠ 0 := by positivity
    have hDq : (D : ℚ) ≠ 0 := by exact_mod_cast hD0
    field_simp
    ring

theorem parseNum_scaled_neg (N D k : ℕ) (hD0 : D ≠ 0) (hdvd : D ∣ 10 ^ k) :
    parseNum ('-' :: (if k = 0 then decDigits (N * (10 ^ k / D))
      else decDigits (N * (10 ^ k / D) / 10 ^ k) ++
        '.' :: padDigits k (N * (10 ^ k / D) % 10 ^ k))) =
      some (-((N : ℚ) / (D : ℚ))) := by
  by_cases hk0 : k = 0
  · subst hk0
    have hD1 : D = 1 := Nat.dvd_one.mp (by simpa using hdvd)
    subst hD1
    rw [if_pos rfl]
    have hp := parseNum_int_neg (decDigits (N * (10 ^ 0 / 1))) [] (fun c hc => mem_decDigits hc)
      (decDigits_ne_nil _) (Or.inl rfl)
    rw [List.append_nil] at hp
    rw [hp, natVal_decDigits]
    norm_num
  · rw [if_neg hk0]
    have hk1 : 1 ≤ k := by omega
    have hmod : N * (10 ^ k / D) % 10 ^ k < 10 ^ k := Nat.mod_lt _ (by positivity)
    have hp := parseNum_dec_neg (decDigits (N * (10 ^ k / D) / 10 ^ k))
      (padDigits k (N * (10 ^ k / D) % 10 ^ k)) []
      (fun c hc => mem_decDigits hc) (fun c hc => mem_padDigits hc)
      (decDigits_ne_nil _) (Or.inl rfl)
    rw [List.append_nil] at hp
    rw [hp, natVal_decDigits, natVal_padDigits, length_padDigits hk1 hmod, split_value]
    congr 1
    rw [Nat.cast_mul, Nat.cast_div hdvd (by exact_mod_cast hD0)]
    have h10 : ((10 : ℚ)) ^ k ≠ 0 := by positivity
    have hDq : (D : ℚ) ≠ 0 := by exact_mod_cast hD0
    field_simp
    ring

theorem parseNum_numToChars {q : ℚ} (hq : (q.den : ℕ) ∣ 10 ^ 20) :
    parseNum (numToChars q) = some q := by
  have hden0 : q.den ≠ 0 := q.den_nz
  have h20 : 10 ^ 20 % q.den = 0 := by
    obtain ⟨c, hc⟩ := hq
    rw [hc, Nat.mul_mod_right]
  have hfound : (kFor q.den).isSome := by
    rw [kFor, List.find?_isSome]
    exact ⟨20, by simp, by simpa using h20⟩
  rcases hk : kFor q.den with _ | k
  · rw [hk] at hfound
    simp at hfound
  have hprop : 10 ^ k % q.den = 0 := by
    have h2 := List.find?_some
      (show (List.range 21).find? (fun j => 10 ^ j % q.den == 0) = some k from hk)
    simpa using h2
  have hdvd : q.den ∣ 10 ^ k := Nat.dvd_of_mod_eq_zero hprop
  have hunfold : numToChars q = (if q.num < 0 then ['-'] else []) ++
      (if k = 0 then decDigits (q.num.natAbs * (10 ^ k / q.den))
       else decDigits (q.num.natAbs * (10 ^ k / q.den) / 10 ^ k) ++
         '.' :: padDigits k (q.num.natAbs * (10 ^ k / q.den) % 10 ^ k)) := by
    rw [numToChars, hk]
  rw [hunfold]
  rcases lt_or_ge q.num 0 with hneg | hpos
  · rw [if_pos hneg, List.singleton_append,
      parseNum_scaled_neg q.num.natAbs q.den k hden0 hdvd]
    congr 1
    have hNa : ((q.num.natAbs : ℚ)) = -(q.num : ℚ) := by
      rw [Int.cast_natAbs]
      push_cast
      rw [abs_of_neg (show ((q.num : ℚ)) < 0 from by exact_mod_cast hneg)]
    rw [hNa, neg_div, neg_neg]
    exact_mod_cast Rat.num_div_den q
  · rw [if_neg (not_lt.mpr hpos), List.nil_append,
      parseNum_scaled_pos q.num.natAbs q.den k hden0 hdvd]
    congr 1
    have hNa : ((q.num.natAbs : ℚ)) = (q.num : ℚ) := by
      rw [Int.cast_natAbs]
      push_cast
      rw [abs_of_nonneg (show (0 : ℚ) ≤ (q.num : ℚ) from by exact_mod_cast hpos)]
    rw [hNa]
    exact_mod_cast Rat.num_div_den q

/-- Stripping a rendered currency string (either symbol placement) leaves the
clean signed decimal literal, possibly with one residual space from a
trailing-symbol layout. -/
theorem stripPipeline_render_shape {sp : LSpec} (hgs : GoodSpec sp)
    (sign ds fr : List Char) (hsign : sign = [] ∨ sign = ['-'])
    (hds : ∀ x ∈ ds, x ∈ digitChars) (hfr : ∀ x ∈ fr, x ∈ digitChars) :
    ∃ tail, (tail = [] ∨ tail = [' ']) ∧
      stripPipeline [sp.group] [sp.decimal] sp.symbol
        (if sp.trailing then
          sign ++ ((group3Go sp.group ds ++ sp.decimal :: fr) ++ ' ' :: sp.symbol.data)
         else sign ++ (sp.symbol.data ++ (group3Go sp.group ds ++ sp.decimal :: fr))) =
      (sign ++ (ds ++ '.' :: fr)) ++ tail := by
  obtain ⟨hg1, hg2, hg3, hg4, hg5, hd1, hd2, hd3, hdsym, hsne, hh1, hh2, hh3, hh4⟩ := hgs
  have hsignmem : ∀ x ∈ sign, x = '-' := by
    intro x hx
    rcases hsign with rfl | rfl
    · exact absurd hx (List.not_mem_nil x)
    · exact List.mem_singleton.mp hx
  have hgds : sp.group ∉ ds := fun hm => hg1 (hds _ hm)
  -- group-class removal facts
  have hA1 : removeClass [sp.group] sign = sign := removeClass_eq_self (by
    intro x hx
    rw [List.mem_singleton, hsignmem x hx]
    exact fun he => hg2 he.symm)
  have hA2 : removeClass [sp.group] sp.symbol.data = sp.symbol.data := removeClass_eq_self (by
    intro x hx
    rw [List.mem_singleton]
    exact fun he => hg5 (he ▸ hx))
  have hA3 : removeClass [sp.group] (group3Go sp.group ds) = ds := removeClass_group3Go hgds
  have hA4 : removeClass [sp.group] (sp.decimal :: fr) = sp.decimal :: fr :=
    removeClass_eq_self (by
      intro x hx
      rw [List.mem_singleton]
      rcases List.mem_cons.mp hx with hx | hx
      · exact fun he => hg4 (hx ▸ he).symm
      · exact fun he => hg1 (he ▸ hfr x hx))
  -- decimal-class replacement facts
  have hB1 : replaceClass [sp.decimal] '.' sign = sign := replaceClass_eq_self (by
    intro x hx
    rw [List.mem_singleton, hsignmem x hx]
    exact fun he => hd2 he.symm)
  have hB2 : replaceClass [sp.decimal] '.' sp.symbol.data = sp.symbol.data := by
    by_cases hdd : sp.decimal = '.'
    · rw [hdd]
      exact replaceClass_singleton_self '.' sp.symbol.data
    · exact replaceClass_eq_self (by
        intro x hx
        rw [List.mem_singleton]
        exact fun he => hdd (hdsym (he ▸ hx)))
  have hB3 : replaceClass [sp.decimal] '.' ds = ds := replaceClass_eq_self (by
    intro x hx
    rw [List.mem_singleton]
    exact fun he => hd1 (he ▸ hds x hx))
  have hB3fr : replaceClass [sp.decimal] '.' fr = fr := replaceClass_eq_self (by
    intro x hx
    rw [List.mem_singleton]
    exact fun he => hd1 (he ▸ hfr x hx))
  have hB4 : replaceClass [sp.decimal] '.' (sp.decimal :: fr) = '.' :: fr := by
    rw [show sp.decimal :: fr = [sp.decimal] ++ fr from rfl, replaceClass_append, hB3fr]
    rw [show replaceClass [sp.decimal] '.' [sp.decimal] = ['.'] from by simp [replaceClass]]
    rfl
  -- facts about the clean remainder for the symbol-removal stage
  have hclean : ∀ x ∈ sign ++ (ds ++ '.' :: fr), x ∈ digitChars ∨ x = '.' ∨ x = '-' := by
    intro x hx
    rcases List.mem_append.mp hx with hx | hx
    · exact Or.inr (Or.inr (hsignmem x hx))
    · rcases List.mem_append.mp hx with hx | hx
      · exact Or.inl (hds x hx)
      · rcases List.mem_cons.mp hx with hx | hx
        · exact Or.inr (Or.inl hx)
        · exact Or.inl (hfr x hx)
  have hheadI : ∀ x, (x ∈ digitChars ∨ x = '.' ∨ x = '-' ∨ x = ' ') →
      x ≠ sp.symbol.data.headI := by
    intro x hx he
    rcases hx with hx | hx | hx | hx
    · exact hh1 (he ▸ hx)
    · exact hh2 (he.symm.trans hx)
    · exact hh3 (he.symm.trans hx)
    · exact hh4 (he.symm.trans hx)
  rcases htr : sp.trailing with _ | _
  · -- leading symbol: sign ++ symbol ++ grouped-number
    rw [if_neg (by simp)]
    refine ⟨[], Or.inl rfl, ?_⟩
    rw [stripPipeline]
    rw [removeClass_append, removeClass_append, removeClass_append, hA1, hA2, hA3, hA4]
    rw [replaceClass_append, replaceClass_append, replaceClass_append, hB1, hB2, hB3, hB4]
    by_cases hlen : sp.symbol.length < 2
    · rw [if_pos hlen]
      rcases List.exists_cons_of_ne_nil hsne with ⟨y, ys, hy⟩
      have hys : ys = [] := by
        have hl : sp.symbol.length = sp.symbol.data.length := rfl
        rw [hy] at hl
        cases ys with
        | nil => rfl
        | cons z zs =>
          rw [hl] at hlen
          simp only [List.length_cons] at hlen
          omega
      subst hys
      have hyh : sp.symbol.data.headI = y := by rw [hy]; rfl
      rw [hy]
      rw [removeClass_append]
      rw [removeClass_eq_self (by
        intro x hx
        rw [List.mem_singleton]
        intro he
        rcases hsignmem x hx with rfl
        exact hheadI '-' (Or.inr (Or.inr (Or.inl rfl))) (he ▸ hyh ▸ rfl))]
      rw [removeClass_append, removeClass_cons_mem (List.mem_singleton.mpr rfl)]
      rw [show removeClass [y] ([] : List Char) = [] from rfl]
      rw [removeClass_eq_self (by
        intro x hx
        rw [List.mem_singleton]
        intro he
        refine hheadI x ?_ (by rw [hyh, he])
        rcases List.mem_append.mp hx with hx | hx
        · exact Or.inl (hds x hx)
        · rcases List.mem_cons.mp hx with hx | hx
          · exact Or.inr (Or.inl hx)
          · exact Or.inl (hfr x hx))]
      rw [List.append_nil, List.nil_append]
    · rw [if_neg hlen]
      rcases List.exists_cons_of_ne_nil hsne with ⟨y, ys, hy⟩
      have hyh : sp.symbol.data.headI = y := by rw [hy]; rfl
      rw [hy]
      rw [show sign ++ ((y :: ys) ++ (ds ++ '.' :: fr)) = sign ++ (y :: ys) ++ (ds ++ '.' :: fr)
        from by simp]
      rw [removeSub_clean ys sign (by
          intro hm
          rcases hsignmem y hm with he
          exact hheadI y (Or.inr (Or.inr (Or.inl he))) hyh.symm)
        (by
          intro hm
          refine hheadI y ?_ hyh.symm
          rcases List.mem_append.mp hm with hm | hm
          · exact Or.inl (hds y hm)
          · rcases List.mem_cons.mp hm with hm | hm
            · exact Or.inr (Or.inl hm)
            · exact Or.inl (hfr y hm))]
      rw [List.append_nil]
  · -- trailing symbol: sign ++ grouped-number ++ space ++ symbol
    rw [if_pos rfl]
    by_cases hgsp : sp.group = ' '
    · -- the group class also eats the literal space before the symbol
      refine ⟨[], Or.inl rfl, ?_⟩
      rw [stripPipeline]
      rw [removeClass_append, removeClass_append, removeClass_append, hA1, hA3, hA4]
      rw [show removeClass [sp.group] (' ' :: sp.symbol.data) = sp.symbol.data from by
        rw [removeClass_cons_mem (by rw [List.mem_singleton]; exact hgsp.symm), hA2]]
      rw [replaceClass_append, replaceClass_append, replaceClass_append, hB1, hB3, hB4, hB2]
      by_cases hlen : sp.symbol.length < 2
      · rw [if_pos hlen]
        rcases List.exists_cons_of_ne_nil hsne with ⟨y, ys, hy⟩
        have hys : ys = [] := by
          have hl : sp.symbol.length = sp.symbol.data.length := rfl
          rw [hy] at hl
          cases ys with
          | nil => rfl
          | cons z zs =>
            rw [hl] at hlen
            simp only [List.length_cons] at hlen
            omega
        subst hys
        have hyh : sp.symbol.data.headI = y := by rw [hy]; rfl
        rw [hy]
        rw [removeClass_append, removeClass_append, removeClass_append]
        rw [removeClass_eq_self (by
          intro x hx
          rw [List.mem_singleton]
          intro he
          rcases hsignmem x hx with rfl
          exact hheadI '-' (Or.inr (Or.inr (Or.inl rfl))) (he ▸ hyh ▸ rfl))]
        rw [removeClass_eq_self (by
          intro x hx
          rw [List.mem_singleton]
          intro he
          exact hheadI x (Or.inl (hds x hx)) (by rw [hyh, he]))]
        rw [removeClass_eq_self (by
          intro x hx
          rw [List.mem_singleton]
          intro he
          refine hheadI x ?_ (by rw [hyh, he])
          rcases List.mem_cons.mp hx with hx | hx
          · exact Or.inr (Or.inl hx)
          · exact Or.inl (hfr x hx))]
        rw [removeClass_cons_mem (List.mem_singleton.mpr rfl)]
        rw [show removeClass [y] ([] : List Char) = [] from rfl]
        rw [List.append_nil, List.append_assoc, List.append_nil]
      · rw [if_neg hlen]
        rcases List.exists_cons_of_ne_nil hsne with ⟨y, ys, hy⟩
        have hyh : sp.symbol.data.headI = y := by rw [hy]; rfl
        rw [hy]
        rw [show sign ++ ((ds ++ '.' :: fr) ++ y :: ys) =
            (sign ++ (ds ++ '.' :: fr)) ++ (y :: ys) ++ [] from by simp]
        rw [removeSub_clean ys (sign ++ (ds ++ '.' :: fr)) (by
            intro hm
            rcases hclean y hm with hm' | hm' | hm'
            · exact hheadI y (Or.inl hm') hyh.symm
            · exact hheadI y (Or.inr (Or.inl hm')) hyh.symm
            · exact hheadI y (Or.inr (Or.inr (Or.inl hm'))) hyh.symm)
          (List.not_mem_nil y)]
    · -- the literal space survives until the end and is trimmed by Number()
      refine ⟨[' '], Or.inr rfl, ?_⟩
      rw [stripPipeline]
      rw [removeClass_append, removeClass_append, removeClass_append, hA1, hA3, hA4]
      rw [show removeClass [sp.group] (' ' :: sp.symbol.data) = ' ' :: sp.symbol.data from
        removeClass_eq_self (by
          intro x hx
          rw [List.mem_singleton]
          rcases List.mem_cons.mp hx with hx | hx
          · exact fun he => hgsp (hx ▸ he).symm
          · exact fun he => hg5 (he ▸ hx))]
      rw [replaceClass_append, replaceClass_append, replaceClass_append, hB1, hB3, hB4]
      rw [show replaceClass [sp.decimal] '.' (' ' :: sp.symbol.data) = ' ' :: sp.symbol.data from by
        rw [show (' ' :: sp.symbol.data) = [' '] ++ sp.symbol.data from rfl, replaceClass_append,
          hB2]
        rw [replaceClass_eq_self (by
          intro x hx
          rw [List.mem_singleton] at hx ⊢
          exact fun he => hd3 (hx ▸ he).symm)]]
      by_cases hlen : sp.symbol.length < 2
      · rw [if_pos hlen]
        rcases List.exists_cons_of_ne_nil hsne with ⟨y, ys, hy⟩
        have hys : ys = [] := by
          have hl : sp.symbol.length = sp.symbol.data.length := rfl
          rw [hy] at hl
          cases ys with
          | nil => rfl
          | cons z zs =>
            rw [hl] at hlen
            simp only [List.length_cons] at hlen
            omega
        subst hys
        have hyh : sp.symbol.data.headI = y := by rw [hy]; rfl
        rw [hy]
        rw [removeClass_append, removeClass_append, removeClass_append]
        rw [removeClass_eq_self (by
          intro x hx
          rw [List.mem_singleton]
          intro he
          rcases hsignmem x hx with rfl
          exact hheadI '-' (Or.inr (Or.inr (Or.inl rfl))) (he ▸ hyh ▸ rfl))]
        rw [removeClass_eq_self (by
          intro x hx
          rw [List.mem_singleton]
          intro he
          exact hheadI x (Or.inl (hds x hx)) (by rw [hyh, he]))]
        rw [removeClass_eq_self (by
          intro x hx
          rw [List.mem_singleton]
          intro he
          refine hheadI x ?_ (by rw [hyh, he])
          rcases List.mem_cons.mp hx with hx | hx
          · exact Or.inr (Or.inl hx)
          · exact Or.inl (hfr x hx))]
        rw [show removeClass [y] (' ' :: [y]) = [' '] from by
          rw [show (' ' :: [y]) = [' '] ++ [y] from rfl, removeClass_append,
            removeClass_cons_mem (List.mem_singleton.mpr rfl)]
          rw [removeClass_eq_self (by
            intro x hx
            rw [List.mem_singleton] at hx ⊢
            intro he
            exact hheadI ' ' (Or.inr (Or.inr (Or.inr rfl))) (by rw [hyh, ← he, hx]))]
          rfl]
        simp
      · rw [if_neg hlen]
        rcases List.exists_cons_of_ne_nil hsne with ⟨y, ys, hy⟩
        have hyh : sp.symbol.data.headI = y := by rw [hy]; rfl
        rw [hy]
        rw [show sign ++ ((ds ++ '.' :: fr) ++ ' ' :: y :: ys) =
            (sign ++ (ds ++ '.' :: fr) ++ [' ']) ++ (y :: ys) ++ [] from by simp]
        rw [removeSub_clean ys (sign ++ (ds ++ '.' :: fr) ++ [' ']) (by
            intro hm
            rcases List.mem_append.mp hm with hm | hm
            · rcases hclean y hm with hm' | hm' | hm'
              · exact hheadI y (Or.inl hm') hyh.symm
              · exact hheadI y (Or.inr (Or.inl hm')) hyh.symm
              · exact hheadI y (Or.inr (Or.inr (Or.inl hm'))) hyh.symm
            · rw [List.mem_singleton] at hm
              exact hheadI y (Or.inr (Or.inr (Or.inr hm))) hyh.symm)
          (List.not_mem_nil y)]
        rw [List.append_nil]

theorem renderCents_shape (sp : LSpec) (c : ℤ) :
    sp.renderCents c =
      (if sp.trailing then
        (if c < 0 then ['-'] else []) ++
          ((group3Go sp.group (decDigits (c.natAbs / 100)) ++
            sp.decimal :: padDigits 2 (c.natAbs % 100)) ++ ' ' :: sp.symbol.data)
       else
        (if c < 0 then ['-'] else []) ++
          (sp.symbol.data ++ (group3Go sp.group (decDigits (c.natAbs / 100)) ++
            sp.decimal :: padDigits 2 (c.natAbs % 100)))) := by
  cases htr : sp.trailing
  · simp [LSpec.renderCents, htr]
  · simp [LSpec.renderCents, htr, List.append_assoc]

/-- Round-trip at the Formatting-Service level: stripping a rendered amount
recovers exactly the rendered cents. -/
theorem parse_strip_renderCents {sp : LSpec} (hgs : GoodSpec sp) (c : ℤ) :
    parseNum (stripPipeline [sp.group] [sp.decimal] sp.symbol (sp.renderCents c)) =
      some ((c : ℚ) / 100) := by
  obtain ⟨tail, htail, hstrip⟩ := stripPipeline_render_shape hgs (if c < 0 then ['-'] else [])
    (decDigits (c.natAbs / 100)) (padDigits 2 (c.natAbs % 100))
    (by
      by_cases hc : c < 0
      · exact Or.inr (by rw [if_pos hc])
      · exact Or.inl (by rw [if_neg hc]))
    (fun x hx => mem_decDigits hx) (fun x hx => mem_padDigits hx)
  rw [renderCents_shape, hstrip]
  have hmod : c.natAbs % 100 < 100 := Nat.mod_lt _ (by omega)
  have hlen2 : (padDigits 2 (c.natAbs % 100)).length = 2 :=
    length_padDigits (by omega) (by norm_num; omega)
  have hsv : ((c.natAbs / 100 : ℕ) : ℚ) + ((c.natAbs % 100 : ℕ) : ℚ) / 10 ^ (2 : ℕ)
      = (c.natAbs : ℚ) / 100 := by
    have := split_value c.natAbs 2
    norm_num at this ⊢
    convert this using 2
  by_cases hc : c < 0
  · rw [if_pos hc, List.singleton_append]
    have hp := parseNum_dec_neg (decDigits (c.natAbs / 100)) (padDigits 2 (c.natAbs % 100)) tail
      (fun x hx => mem_decDigits hx) (fun x hx => mem_padDigits hx) (decDigits_ne_nil _) htail
    rw [hp, natVal_decDigits, natVal_padDigits, hlen2]
    congr 1
    rw [hsv]
    have hca : ((c.natAbs : ℚ)) = -((c : ℤ) : ℚ) := by
      rw [Int.cast_natAbs]
      push_cast
      rw [abs_of_neg (show ((c : ℤ) : ℚ) < 0 from by exact_mod_cast hc)]
    rw [hca]
    ring
  · rw [if_neg hc, List.nil_append]
    have hp := parseNum_dec_pos (decDigits (c.natAbs / 100)) (padDigits 2 (c.natAbs % 100)) tail
      (fun x hx => mem_decDigits hx) (fun x hx => mem_padDigits hx) (decDigits_ne_nil _) htail
    rw [hp, natVal_decDigits, natVal_padDigits, hlen2]
    congr 1
    rw [hsv]
    have hca : ((c.natAbs : ℚ)) = ((c : ℤ) : ℚ) := by
      rw [Int.cast_natAbs]
      push_cast
      rw [abs_of_nonneg (show (0 : ℚ) ≤ ((c : ℤ) : ℚ) from by
        exact_mod_cast not_lt.mp hc)]
    rw [hca]

/-- Typed part of `Intl.NumberFormat.formatToParts` output. -/
structure Part where
  type : String
  value : String
deriving DecidableEq, Repr

/-- Modelled from the spec (§6 `renderToParts`): the typed-parts rendering of
the model Formatting Service, consistent with `renderCents`. -/
def LSpec.renderParts (sp : LSpec) (c : ℤ) : List Part :=
  let n := c.natAbs
  let intParts := List.intersperse (Part.mk "group" (String.mk [sp.group]))
    ((chunkRight (decDigits (n / 100))).map (fun ch => Part.mk "integer" (String.mk ch)))
  let core := intParts ++ [Part.mk "decimal" (String.mk [sp.decimal]),
    Part.mk "fraction" (String.mk (padDigits 2 (n % 100)))]
  if sp.trailing then core ++ [Part.mk "literal" " ", Part.mk "currency" sp.symbol]
  else Part.mk "currency" sp.symbol :: core

/-- Modelled from the spec (§6): `Intl.supportedValuesOf('currency')` of the
model service. -/
def supportedCurrencies : List String := ["USD", "CAD", "GBP", "PAB"]

/-- Modelled from the spec (§6): the locale tags `Intl.getCanonicalLocales`
accepts in this model; canonicalization is the identity on them. -/
def validLocales : List String := ["en-US", "en-CA", "fr-CA", "es-PA", "en-GB"]

def validLocale (locale : String) : Bool := validLocales.contains locale

/-- Modelled from the spec (§2, §6): the per-(currency, locale) rendering
facts of the model Formatting Service.  (`USD`/`en-CA` and `CAD`/`en-US`
share the prefixed-dollar rendering; `PAB`/`es-PA` uses the real-world
Balboa symbol `B/.`, whose dot collides with the decimal separator.) -/
def specTable : List ((String × String) × LSpec) :=
  [(("USD", "en-US"), ⟨',', '.', "$", false⟩),
   (("USD", "en-CA"), ⟨',', '.', "C$", false⟩),
   (("USD", "fr-CA"), ⟨' ', ',', "$US", true⟩),
   (("CAD", "en-US"), ⟨',', '.', "C$", false⟩),
   (("CAD", "en-CA"), ⟨',', '.', "$", false⟩),
   (("CAD", "fr-CA"), ⟨' ', ',', "$", true⟩),
   (("GBP", "en-GB"), ⟨',', '.', "£", false⟩),
   (("PAB", "es-PA"), ⟨',', '.', "B/.", false⟩)]

/-- Pairs outside the table render with the generic fallback: comma groups,
dot decimal, the currency code itself as the symbol, leading. -/
def lspecFor (currency locale : String) : LSpec :=
  (((specTable.find? (fun e => e.1 == (currency, locale))).map (fun e => e.2)).getD
    ⟨',', '.', currency, false⟩)

/-- JS exception values raised or returned by the library. -/
inductive JsErr where
  | typeError (msg : String)
  | rangeError (msg : String)
  | error (msg : String)
deriving DecidableEq, Repr

/-- `CurrencyInfo.validateRuntime` (source lines 751-763): the model runtime
always has the `Intl` capabilities. -/
def validateRuntime : Option JsErr := none

/-- `CurrencyInfo.validateCurrency` (source lines 707-713). -/
def validateCurrency (currency : String) : Option JsErr :=
  if supportedCurrencies.contains currency then none
  else some (JsErr.typeError ("Currency value " ++ currency ++ " is not supported"))

/-- `CurrencyInfo.validateLocale` (source lines 730-739). -/
def validateLocale (locale : String) : Option JsErr :=
  if validLocale locale then none
  else some (JsErr.rangeError ("Incorrect locale information provided: " ++ locale))

/-- `CurrencyInfo.checkForInputErrors` (source lines 378-384): runtime, then
currency, then locale; only the errors are kept. -/
def checkForInputErrors (currency locale : String) : List JsErr :=
  [validateRuntime, validateCurrency currency, validateLocale locale].filterMap id

/-- Result of `symbolPosition` (source lines 220-256). -/
inductive SymbolPos where
  | leading
  | trailing
  | within
  | missing
deriving DecidableEq, Repr

/-- The shared classification (source lines 248-255): `position === 0` first,
then `position == parts.length - 1`, then `~position` (that is, `≠ -1`). -/
def classifyPos (position : ℤ) (len : ℕ) : SymbolPos :=
  if position = 0 then SymbolPos.leading
  else if position = (len : ℤ) - 1 then SymbolPos.trailing
  else if position ≠ -1 then SymbolPos.within
  else SymbolPos.missing

/-- Input to `symbolPosition`: a `formatToParts` array, or any other value
(coerced by the source with `String(...)`). -/
inductive SymInput where
  | parts (l : List Part)
  | str (s : String)

/-- `symbolPosition` (source lines 220-256).  For an array: filter to parts
with truthy `type` and `value`, find the index of the `currency` part.  For
anything else: `String(...).indexOf(symbol)`.  Both shapes then share
`classifyPos` against the filtered length (array) or character length
(string). -/
def symbolPosition (symbol : String) : SymInput → SymbolPos
  | SymInput.parts l =>
    let filtered := l.filter (fun part => !(part.type == "") && !(part.value == ""))
    let position : ℤ :=
      match filtered.findIdx? (fun p => p.type == "currency") with
      | some i => (i : ℤ)
      | none => -1
    classifyPos position filtered.length
  | SymInput.str s =>
    let position : ℤ :=
      match indexOfSub symbol.data s.data with
      | some i => (i : ℤ)
      | none => -1
    classifyPos position s.data.length

/-- A compiled global-flag `RegExp`: its pattern (character class or literal)
plus the mutable `lastIndex` match-position state a reused instance would
carry across calls. -/
inductive RePat where
  | cls (chars : List Char)
  | lit (pat : List Char)
deriving DecidableEq, Repr

structure GRegex where
  pat : RePat
  lastIndex : ℕ
deriving DecidableEq, Repr

/-- `String.match(re)?.length ?? 0`, under the stateful-hazard semantics: a
matcher only sees the input from its `lastIndex` on.  A freshly constructed
instance has `lastIndex = 0` and sees the whole string. -/
def GRegex.countFrom (r : GRegex) (s : List Char) : ℕ :=
  match r.pat with
  | RePat.cls chars => countClassMatches chars (s.drop r.lastIndex)
  | RePat.lit pat => countSub pat (s.drop r.lastIndex)

/-- `String.replace(re, '')` for a matcher object. -/
def applyRegexRemove (r : GRegex) (s : List Char) : List Char :=
  match r.pat with
  | RePat.cls chars => removeClass chars s
  | RePat.lit pat => removeSub pat s

/-- `String.replace(re, '.')` for a character-class matcher (the decimal
matcher is always a class). -/
def applyRegexReplaceDot (r : GRegex) (s : List Char) : List Char :=
  match r.pat with
  | RePat.cls chars => replaceClass chars '.' s
  | RePat.lit _ => s

/-- The embedded `CurrencyInfo` instance (source lines 258-300): the derived
separators and symbol (with their `','` / `'.'` / `'$'` fallbacks), the
symbol position computed from the reference parts, the bound formatter spec,
and an object identity used to state reference-identity facts about the
cache. -/
structure Profile where
  currency : String
  locale : String
  group : String
  decimal : String
  symbol : String
  symbolPos : SymbolPos
  formatterSpec : LSpec
  id : ℕ := 0
deriving DecidableEq, Repr

/-- `regexSeparators.group` (source line 135): a function returning a fresh
global character-class matcher on every call. -/
def Profile.regexGroup (p : Profile) : Unit → GRegex :=
  fun _ => { pat := RePat.cls p.group.data, lastIndex := 0 }

/-- `regexSeparators.decimal` (source line 140). -/
def Profile.regexDecimal (p : Profile) : Unit → GRegex :=
  fun _ => { pat := RePat.cls p.decimal.data, lastIndex := 0 }

/-- `regexSeparators.symbol` (source lines 136-139): a character class for a
single-character symbol, a literal pattern for a longer one. -/
def Profile.regexSymbol (p : Profile) : Unit → GRegex :=
  fun _ =>
    if p.symbol.length < 2 then { pat := RePat.cls p.symbol.data, lastIndex := 0 }
    else { pat := RePat.lit p.symbol.data, lastIndex := 0 }

/-- `strip` (source lines 162-168) on a string input: the three global
replacements, each on a matcher freshly produced by its `regexSeparators`
thunk, then `Number(...)`. -/
def Profile.strip (p : Profile) (s : String) : Option ℚ :=
  parseNum (applyRegexRemove (p.regexSymbol ())
    (applyRegexReplaceDot (p.regexDecimal ())
      (applyRegexRemove (p.regexGroup ()) s.data)))

/-- `strip` on a number argument (`String(numberOrString)` coercion). -/
def Profile.stripNum (p : Profile) (v : Option ℚ) : Option ℚ :=
  p.strip (numToStr v)

/-- `format` (source lines 182-184) on a string argument:
`formatter.format(this.strip(x))`. -/
def Profile.format (p : Profile) (s : String) : String :=
  p.formatterSpec.render (p.strip s)

/-- `format` on a number argument. -/
def Profile.formatNum (p : Profile) (v : Option ℚ) : String :=
  p.formatterSpec.render (p.stripNum v)

/-- `symbol.locator` (source line 279) applied to a plain string. -/
def Profile.locator (p : Profile) (s : String) : SymbolPos :=
  symbolPosition p.symbol (SymInput.str s)

/-- Reference rendering used by the constructor:
`formatter.formatToParts(123456789.123)` (source line 110); the service
renders two fraction digits, i.e. cents value 12345678912. -/
def referenceParts (sp : LSpec) : List Part := sp.renderParts 12345678912

/-- Profile construction from the Formatting Service outputs (source lines
110-119 and 258-300), cache aside. -/
def mkProfile (currency locale : String) : Profile :=
  let sp := lspecFor currency locale
  let parts := referenceParts sp
  let symbol := (((parts.find? (fun p => p.type == "currency")).map Part.value).getD "$")
  { currency := currency
    locale := locale
    group := (((parts.find? (fun p => p.type == "group")).map Part.value).getD ",")
    decimal := (((parts.find? (fun p => p.type == "decimal")).map Part.value).getD ".")
    symbol := symbol
    symbolPos := symbolPosition symbol (SymInput.parts parts)
    formatterSpec := sp }

/-- `CurrencyInfo.get` / profile construction, pure view (construction is
deterministic, so the cache is observationally transparent; the stateful
cache model is below). -/
def getProfile (currency locale : String) : Except JsErr Profile :=
  match checkForInputErrors currency locale with
  | [] => Except.ok (mkProfile currency locale)
  | e :: _ => Except.error e

/-- The `assume` detection option: a plain object (or `CurrencyInfo`
instance) carrying optional `locale` and `currency` fields. -/
structure Assume where
  locale : Option String := none
  currency : Option String := none
deriving DecidableEq, Repr

/-- `detect` options with the source's defaults (source lines 445-450). -/
structure DetectOptions where
  currencies : List String := ["USD", "CAD"]
  languages : List String := ["en", "es", "fr"]
  countries : List String := ["US", "CA"]
  assume : Option Assume := none
deriving Repr

/-- JS string truthiness as `detect` tests it on locale fields. -/
def strTruthy : Option String → Bool
  | none => false
  | some s => !(s == "")

/-- The detection result object.  `none`-valued fields model JS object keys
that a given code path leaves absent (`original` is absent on the
perfect-match fast path; `currency` is only set by the assume fallback); an
`amount` of `some none` models an `NaN` amount, `none` an absent one. -/
structure DetectResult where
  locale : Option String := none
  amount : Option (Option ℚ) := none
  formatted : Option String := none
  original : Option String := none
  currency : Option String := none
  currencyInfo : Option Profile := none
  score : ℚ := 0
deriving DecidableEq, Repr

/-- Locale tags generated by `detect` (source lines 454-459): country-major,
language-minor. -/
def buildLocales (opts : DetectOptions) : List String :=
  (opts.countries.map (fun country =>
    opts.languages.map (fun language => language ++ "-" ++ country))).join

/-- Candidate construction (source lines 464-478): profiles are created
currency-major — the order in which construction errors surface — and then
iterated locale-major through the per-locale buckets of `currencyData`
(`Object.values` preserves the locale insertion order; canonicalization is
the identity on the model's valid tags, so the bucket key
`currencyInfo.locale` matches the generated tag). -/
def buildCandidates (opts : DetectOptions) : Except JsErr (List Profile) := do
  let locales := buildLocales opts
  let _ ← ((opts.currencies.map (fun currency =>
    locales.map (fun locale => (currency, locale)))).join).mapM
    (fun pr => getProfile pr.1 pr.2)
  Except.ok ((locales.map (fun locale =>
    opts.currencies.filterMap (fun currency => (getProfile currency locale).toOption))).join)

/-- Outcome of one iteration of the detection loop for one candidate. -/
inductive CandOut where
  | skip
  | exact (r : DetectResult)
  | scored (entry : ℚ × Profile)
deriving DecidableEq, Repr

/-- `formatted.match(group())?.length ?? 0` (source line 512). -/
def groupCount (info : Profile) (formatted : String) : ℕ :=
  (info.regexGroup ()).countFrom formatted.data

/-- `formatted.match(decimal())?.length ?? 0` (source line 513). -/
def decimalCount (info : Profile) (formatted : String) : ℕ :=
  (info.regexDecimal ()).countFrom formatted.data

/-- `formatted.match(symbol())?.length ?? 0` (source line 522). -/
def symbolCount (info : Profile) (formatted : String) : ℕ :=
  (info.regexSymbol ()).countFrom formatted.data

/-- Group-separator points (source lines 531-537). -/
def groupPoints (info : Profile) (formatted : String) : ℤ :=
  if groupCount info formatted ≠ 0 then
    (if groupCount info formatted > 1 then 2 else 1)
  else 0

/-- Decimal-separator points (source lines 539-545; only reached when the
count is not above one). -/
def decimalPoints (info : Profile) (formatted : String) : ℤ :=
  if decimalCount info formatted ≠ 0 then
    (if decimalCount info formatted = 1 then 2 else 1)
  else 0

/-- Currency-symbol points (source lines 547-562): one for presence, one
more when the symbol position of the input agrees with that of the
re-rendering, minus one when it disagrees. -/
def symbolPoints (info : Profile) (formatted reformatted : String) : ℤ :=
  if symbolCount info formatted > 0 then
    1 + (if info.locator formatted = info.locator reformatted then 1 else -1)
  else 0

/-- The accumulated raw score: the `score++` / `score--` updates of source
lines 491-562 are exactly this sum of independent contributions. -/
def rawScore (info : Profile) (formatted : String) : ℤ :=
  groupPoints info formatted + decimalPoints info formatted +
    symbolPoints info formatted (info.formatNum (info.strip formatted))

/-- `Math.max(0, Math.min(6, score))` (source line 566). -/
def clampedScore (info : Profile) (formatted : String) : ℤ :=
  max 0 (min 6 (rawScore info formatted))

/-- The perfect-match result object (source lines 501-509).  Note: this
object carries no `original` key. -/
def exactResult (info : Profile) (formatted : String) : DetectResult :=
  { locale := some info.locale
    amount := some (info.strip formatted)
    formatted := some (info.formatNum (info.strip formatted))
    currencyInfo := some info
    score := 1 }

/-- One iteration of the detection loop (source lines 485-574): strip, NaN
skip, perfect-match return, decimal disqualification, scoring. -/
def evalCand (info : Profile) (formatted : String) : CandOut :=
  let amount := info.strip formatted
  let reformatted := info.formatNum amount
  if amount.isNone then CandOut.skip
  else if reformatted = formatted then CandOut.exact (exactResult info formatted)
  else if decimalCount info formatted > 1 then CandOut.skip
  else CandOut.scored (Rat.divInt (clampedScore info formatted) 6, info)

/-- The transient per-call scoreboard: locale tag to best entry, in first
insertion order (JS object key order). -/
abbrev Scoreboard := List (String × (ℚ × Profile))

/-- `scoreboard[locale] = {...}` (source lines 570-573): JS object key
assignment — an existing key keeps its position and is overwritten
unconditionally, a new key is appended. -/
def sbInsert (sb : Scoreboard) (locale : String) (e : ℚ × Profile) : Scoreboard :=
  match sb with
  | [] => [(locale, e)]
  | (k, v) :: t => if k = locale then (k, e) :: t else (k, v) :: sbInsert t locale e

def sbLookup (sb : Scoreboard) (locale : String) : Option (ℚ × Profile) :=
  (sb.find? (fun kv => kv.1 == locale)).map (fun kv => kv.2)

/-- The candidate loop (source lines 484-575): an exact match returns from
`detect` immediately; scored candidates are written to the per-locale
scoreboard. -/
def processCands (formatted : String) : List Profile → Scoreboard → DetectResult ⊕ Scoreboard
  | [], sb => Sum.inr sb
  | info :: rest, sb =>
    match evalCand info formatted with
    | CandOut.skip => processCands formatted rest sb
    | CandOut.exact r => Sum.inl r
    | CandOut.scored e => processCands formatted rest (sbInsert sb info.locale e)

/-- Initial value of the scoreboard reduction (source lines 599-606). -/
def initAcc (formatted : String) : DetectResult :=
  { original := some formatted }

/-- One reduction step (source lines 579-593): take the entry when no locale
is set yet and the score is positive, or when it strictly beats the
accumulator's score. -/
def reduceStep (formatted : String) (acc : DetectResult) (ent : String × (ℚ × Profile)) :
    DetectResult :=
  if (¬ strTruthy acc.locale ∧ ent.2.1 > 0) ∨ acc.score < ent.2.1 then
    { acc with
      locale := some ent.1
      amount := some (ent.2.2.strip formatted)
      formatted := some (ent.2.2.formatNum (ent.2.2.strip formatted))
      score := ent.2.1
      currencyInfo := some ent.2.2 }
  else acc

/-- The assume fallback (source lines 614-630).  `CurrencyInfo.get` can
itself throw here when the assumed pair is unsupported. -/
def applyAssume (formatted : String) (assume : Option Assume) (acc : DetectResult) :
    Except JsErr DetectResult :=
  if strTruthy acc.locale then Except.ok acc
  else
    match assume with
    | none => Except.ok acc
    | some a =>
      if strTruthy a.locale ∧ strTruthy a.currency then do
        let info ← getProfile (a.currency.getD "") (a.locale.getD "")
        Except.ok { acc with
          locale := a.locale
          currency := a.currency
          currencyInfo := some info
          amount := some (info.strip formatted)
          formatted := some (info.formatNum (info.strip formatted)) }
      else Except.ok acc

/-- `CurrencyInfo.detect` (source lines 438-635) on a string input (the
source coerces every input with `String(...)` first). -/
def detect (formatted : String) (opts : DetectOptions) :
    Except JsErr (Option DetectResult) := do
  let cands ← buildCandidates opts
  match processCands formatted cands [] with
  | Sum.inl perfect => Except.ok (some perfect)
  | Sum.inr sb => do
    let result ← applyAssume formatted opts.assume
      (sb.foldl (reduceStep formatted) (initAcc formatted))
    Except.ok (if strTruthy result.locale then some result else none)

/-- Construction outcome: a profile, a thrown error, or an error returned as
a value. -/
inductive CtorResult where
  | ok (p : Profile)
  | thrown (e : JsErr)
  | returned (e : JsErr)
deriving DecidableEq, Repr

/-- The `CurrencyInfo` constructor on the uncached path (source lines
78-82): validation errors are returned when `doNotThrow` is set and thrown
otherwise. -/
def constructOutcome (currency locale : String) (doNotThrow : Bool) : CtorResult :=
  match checkForInputErrors currency locale with
  | [] => CtorResult.ok (mkProfile currency locale)
  | e :: _ => if doNotThrow then CtorResult.returned e else CtorResult.thrown e

set_option linter.unusedVariables false in
/-- `CurrencyInfo.get` (source lines 679-681): the `doNotThrow` parameter is
accepted but never forwarded — the body is `new this(currency, locale)`,
which runs the constructor with its default `doNotThrow = false`. -/
def getOutcome (currency locale : String) (doNotThrow : Bool) : CtorResult :=
  constructOutcome currency locale false

/-- The process-wide profile cache (source lines 336-359) with explicit
state: the key-to-instance map, the next object identity, and the number of
Formatting Service invocations performed so far. -/
structure CacheSt where
  cache : List (String × Profile) := []
  nextId : ℕ := 0
  svcCalls : ℕ := 0
deriving DecidableEq, Repr

/-- `${currency}-${locale}` (source line 341). -/
def cacheKey (currency locale : String) : String := currency ++ "-" ++ locale

def cacheGet (st : CacheSt) (k : String) : Option Profile :=
  (st.cache.find? (fun kv => kv.1 == k)).map (fun kv => kv.2)

/-- The constructor with the cache (source lines 70-305), state passed
explicitly: a cache hit short-circuits before validation; a miss validates,
invokes the Formatting Service once, assigns the next object identity and
caches the new instance. -/
def constructSt (currency locale : String) (doNotThrow : Bool) (st : CacheSt) :
    CtorResult × CacheSt :=
  match cacheGet st (cacheKey currency locale) with
  | some p => (CtorResult.ok p, st)
  | none =>
    match checkForInputErrors currency locale with
    | e :: _ => ((if doNotThrow then CtorResult.returned e else CtorResult.thrown e), st)
    | [] =>
      let p := { mkProfile currency locale with id := st.nextId }
      (CtorResult.ok p,
        { cache := st.cache ++ [(cacheKey currency locale, p)]
          nextId := st.nextId + 1
          svcCalls := st.svcCalls + 1 })

/-- `CurrencyInfo.cache(currency, locale, null)` eviction (source lines
354-356). -/
def evictSt (currency locale : String) (st : CacheSt) : CacheSt :=
  { st with cache := st.cache.filter (fun kv => !(kv.1 == cacheKey currency locale)) }

/-- Well-formedness of the cache state: every cached instance was assigned
an identity below the next free one. -/
def CacheWF (st : CacheSt) : Prop :=
  ∀ kv ∈ st.cache, kv.2.id < st.nextId

/-- A store of previously used matcher instances — what a design that cached
compiled `RegExp` objects (instead of the source's thunks) would carry
between calls, including their `lastIndex` state. -/
structure MatcherStore where
  g : GRegex
  d : GRegex
  sy : GRegex
deriving DecidableEq, Repr

/-- `strip` with the matcher store threaded: the source's `strip` calls the
`regexSeparators` thunks anew for every replacement (source lines 162-168),
so the store — whatever stale `lastIndex` state it carries — is never
consulted, and is passed through unchanged. -/
def stripWithStore (p : Profile) (s : String) (st : MatcherStore) :
    Option ℚ × MatcherStore :=
  (parseNum (applyRegexRemove (p.regexSymbol ())
    (applyRegexReplaceDot (p.regexDecimal ())
      (applyRegexRemove (p.regexGroup ()) s.data))), st)

/-- The three separator counts `detect` computes (source lines 511-522),
with the matcher store threaded; as in the source, each count uses a fresh
matcher produced by the corresponding thunk. -/
def detectCountsWithStore (p : Profile) (s : String) (st : MatcherStore) :
    (ℕ × ℕ × ℕ) × MatcherStore :=
  (((p.regexGroup ()).countFrom s.data, (p.regexDecimal ()).countFrom s.data,
    (p.regexSymbol ()).countFrom s.data), st)

/-! ### Bridges between the computational definitions and their textbook forms -/

deriving instance DecidableEq for Except

theorem round2cents_eq (q : ℚ) : round2cents q = round (q * 100) := by
  have hd0 : (q.den : ℚ) ≠ 0 := Nat.cast_ne_zero.mpr q.den_nz
  have hqd : (q.num : ℚ) = q * (q.den : ℚ) := (div_eq_iff hd0).mp (Rat.num_div_den q)
  have h : q * 100 + 1 / 2 = ((200 * q.num + (q.den : ℤ) : ℤ) : ℚ) / ((2 * q.den : ℕ) : ℚ) := by
    push_cast
    field_simp
    rw [hqd]
    ring
  rw [round_eq, h, Rat.floor_intCast_div_natCast, round2cents]
  congr 1

theorem round2cents_divInt_100 (c : ℤ) : round2cents (Rat.divInt c 100) = c := by
  rw [round2cents_eq, Rat.divInt_eq_div]
  push_cast
  have h : ((c : ℚ) / 100) * 100 = (c : ℚ) := by field_simp
  rw [h, round_intCast]

theorem den_divInt_100_dvd (c : ℤ) : (Rat.divInt c 100).den ∣ 10 ^ 20 := by
  have h : ((Rat.divInt c 100).den : ℤ) ∣ (100 : ℤ) := Rat.den_dvd c 100
  have h2 : (Rat.divInt c 100).den ∣ (100 : ℕ) := by exact_mod_cast h
  exact h2.trans ⟨10 ^ 18, by norm_num⟩

/-- The three source replacements of `strip` (each on a matcher freshly made
by its thunk) are exactly the pure pipeline. -/
theorem strip_eq_pipeline (p : Profile) (s : String) :
    p.strip s = parseNum (stripPipeline p.group.data p.decimal.data p.symbol s.data) := by
  by_cases h : p.symbol.length < 2 <;>
    simp [Profile.strip, stripPipeline, applyRegexRemove, applyRegexReplaceDot,
      Profile.regexGroup, Profile.regexDecimal, Profile.regexSymbol, h]

/-- A profile whose derived separator strings agree with its bound formatter
spec, the spec itself being collision-free.  Every profile the model
constructor produces for a table pair satisfies this (checked by `decide` at
the witnesses). -/
def ProfileCoherent (p : Profile) : Prop :=
  p.group.data = [p.formatterSpec.group] ∧ p.decimal.data = [p.formatterSpec.decimal] ∧
    p.symbol = p.formatterSpec.symbol ∧ GoodSpec p.formatterSpec

instance (p : Profile) : Decidable (ProfileCoherent p) := by
  unfold ProfileCoherent
  infer_instance

theorem strip_pipeline_of_coherent {p : Profile} (hp : ProfileCoherent p) (s : String) :
    p.strip s = parseNum (stripPipeline [p.formatterSpec.group] [p.formatterSpec.decimal]
      p.formatterSpec.symbol s.data) := by
  obtain ⟨hg, hd, hs, _⟩ := hp
  rw [strip_eq_pipeline, hg, hd, hs]

/-- Stripping the string form of an already-plain number gives it back. -/
theorem stripNum_some {p : Profile} (hp : ProfileCoherent p) {q : ℚ}
    (hq : q.den ∣ 10 ^ 20) : p.stripNum (some q) = some q := by
  have hgs : GoodSpec p.formatterSpec := hp.2.2.2
  rw [Profile.stripNum]
  show p.strip (String.mk (numToChars q)) = some q
  rw [strip_pipeline_of_coherent hp]
  show parseNum (stripPipeline _ _ _ (numToChars q)) = some q
  rw [stripPipeline_clean hgs (fun ch hch => mem_numToChars hch)]
  exact parseNum_numToChars hq

/-! ### Scoreboard and detection-loop lemmas -/

/-- What the candidate loop leaves on the scoreboard when it runs to the end:
an unconditional `sbInsert` per scored candidate. -/
def sbFold (formatted : String) (cands : List Profile) (sb₀ : Scoreboard) : Scoreboard :=
  cands.foldl (fun acc info =>
    match evalCand info formatted with
    | CandOut.scored e => sbInsert acc info.locale e
    | _ => acc) sb₀

theorem sbLookup_sbInsert_self (sb : Scoreboard) (l : String) (e : ℚ × Profile) :
    sbLookup (sbInsert sb l e) l = some e := by
  induction sb with
  | nil => simp [sbInsert, sbLookup]
  | cons kv t ih =>
    obtain ⟨k, v⟩ := kv
    by_cases h : k = l
    · simp [sbInsert, h, sbLookup]
    · rw [sbInsert, if_neg h, sbLookup, List.find?_cons_of_neg]
      · exact ih
      · simp [h]

theorem processCands_inr_eq_sbFold (formatted : String) :
    ∀ (cands : List Profile) (sb₀ sb : Scoreboard),
      processCands formatted cands sb₀ = Sum.inr sb → sb = sbFold formatted cands sb₀ := by
  intro cands
  induction cands with
  | nil =>
    intro sb₀ sb h
    simp only [processCands] at h
    simp [sbFold, Sum.inr.inj h]
  | cons info rest ih =>
    intro sb₀ sb h
    simp only [processCands] at h
    cases hE : evalCand info formatted with
    | skip =>
      rw [hE] at h
      rw [sbFold, List.foldl_cons, hE]
      exact ih sb₀ sb h
    | exact r =>
      rw [hE] at h
      cases h
    | scored e =>
      rw [hE] at h
      rw [sbFold, List.foldl_cons, hE]
      exact ih (sbInsert sb₀ info.locale e) sb h

/-- Whether the detection loop would hit the perfect-match return on this
candidate. -/
def isExact (formatted : String) (info : Profile) : Bool :=
  match evalCand info formatted with
  | CandOut.exact _ => true
  | _ => false

/-- The candidate list in the order the claim asserts (currency-major,
then-locale), as opposed to the source's locale-major iteration. -/
def currencyMajorCands (opts : DetectOptions) : List Profile :=
  (opts.currencies.map (fun currency =>
    (buildLocales opts).filterMap (fun locale => (getProfile currency locale).toOption))).join

theorem evalCand_exact {info : Profile} {formatted : String} {r : DetectResult}
    (h : evalCand info formatted = CandOut.exact r) : r = exactResult info formatted := by
  simp only [evalCand] at h
  split at h
  · cases h
  · split at h
    · exact (CandOut.exact.inj h).symm
    · split at h
      · cases h
      · cases h

theorem processCands_first_exact (formatted : String) :
    ∀ (cands : List Profile) (sb : Scoreboard) {info : Profile},
      cands.find? (isExact formatted) = some info →
      processCands formatted cands sb = Sum.inl (exactResult info formatted) := by
  intro cands
  induction cands with
  | nil =>
    intro sb info h
    simp at h
  | cons hd tl ih =>
    intro sb info h
    by_cases hx : isExact formatted hd
    · rw [List.find?_cons_of_pos _ hx] at h
      obtain rfl : hd = info := Option.some.inj h
      rw [isExact] at hx
      cases hE : evalCand hd formatted with
      | skip => rw [hE] at hx; cases hx
      | scored e => rw [hE] at hx; cases hx
      | exact r =>
        simp only [processCands, hE]
        rw [evalCand_exact hE]
    · rw [List.find?_cons_of_neg _ hx] at h
      simp only [processCands]
      cases hE : evalCand hd formatted with
      | skip => exact ih sb h
      | exact r =>
        rw [isExact, hE] at hx
        cases hx rfl
      | scored e => exact ih _ h

/-- `detect` once the candidate construction is known to succeed. -/
theorem detect_eq (formatted : String) (opts : DetectOptions) (cands : List Profile)
    (hb : buildCandidates opts = Except.ok cands) :
    detect formatted opts =
      match processCands formatted cands [] with
      | Sum.inl perfect => Except.ok (some perfect)
      | Sum.inr sb =>
        (applyAssume formatted opts.assume
            (sb.foldl (reduceStep formatted) (initAcc formatted))).bind
          (fun result => Except.ok (if strTruthy result.locale then some result else none)) := by
  rw [detect, hb]
  rfl

/-- A scoreboard with no positive score moves the reduction accumulator
nowhere. -/
theorem foldl_reduceStep_nonpos (formatted : String) :
    ∀ (sb : Scoreboard), (∀ ent ∈ sb, ent.2.1 ≤ 0) →
      sb.foldl (reduceStep formatted) (initAcc formatted) = initAcc formatted := by
  intro sb
  induction sb with
  | nil => intro _; rfl
  | cons ent t ih =>
    intro h
    have hent : ent.2.1 ≤ 0 := h ent (List.mem_cons_self ent t)
    rw [List.foldl_cons]
    have h1 : reduceStep formatted (initAcc formatted) ent = initAcc formatted := by
      rw [reduceStep, if_neg]
      intro hc
      rcases hc with ⟨_, hpos⟩ | hlt
      · exact absurd hpos (not_lt.mpr hent)
      · have hz : (initAcc formatted).score = 0 := rfl
        rw [hz] at hlt
        exact absurd hlt (not_lt.mpr hent)
    rw [h1]
    exact ih (fun e he => h e (List.mem_cons_of_mem _ he))

/-! ### Cache lemmas -/

theorem find?_filter_ne_none (k : String) :
    ∀ l : List (String × Profile),
      ((l.filter (fun kv => !(kv.1 == k))).find? (fun kv => kv.1 == k)) = none := by
  intro l
  induction l with
  | nil => rfl
  | cons kv t ih =>
    by_cases h : kv.1 = k
    · simp [List.filter_cons, h, ih]
    · simp only [List.filter_cons]
      rw [if_pos (by simp [h])]
      rw [List.find?_cons_of_neg _ (by simp [h])]
      exact ih

/-- Eviction really removes the key. -/
theorem cacheGet_evict_none (currency locale : String) (st : CacheSt) :
    cacheGet (evictSt currency locale st) (cacheKey currency locale) = none := by
  rw [cacheGet, evictSt]
  rw [find?_filter_ne_none (cacheKey currency locale) st.cache]
  rfl

theorem find?_append_of_none {p : String × Profile → Bool} :
    ∀ {l₁ : List (String × Profile)} (l₂ : List (String × Profile)),
      l₁.find? p = none → (l₁ ++ l₂).find? p = l₂.find? p := by
  intro l₁
  induction l₁ with
  | nil => intro l₂ _; rfl
  | cons kv t ih =>
    intro l₂ h
    rw [List.find?_cons] at h
    cases hp : p kv with
    | true => rw [hp] at h; cases h
    | false =>
      rw [hp] at h
      rw [List.cons_append, List.find?_cons, hp]
      exact ih l₂ h

/-! ### The claims -/

/-- C1: the spec says a later candidate replaces a locale's scoreboard entry
only when its score is strictly greater, first-seen winning ties.  The code's
write (source line 570) is unconditional, so what the loop leaves per locale
is the LAST scored candidate: the final scoreboard is the plain fold of
unconditional `sbInsert`s, and an insert always wins the lookup regardless of
the previously stored score. -/
theorem c1_scoreboard_last_write_wins (formatted : String) (cands : List Profile)
    (sb₀ sb : Scoreboard) (h : processCands formatted cands sb₀ = Sum.inr sb) :
    sb = sbFold formatted cands sb₀ ∧
      ∀ (sb' : Scoreboard) (l : String) (e : ℚ × Profile),
        sbLookup (sbInsert sb' l e) l = some e :=
  ⟨processCands_inr_eq_sbFold formatted cands sb₀ sb h,
    fun sb' l e => sbLookup_sbInsert_self sb' l e⟩

/-- C1 witness: an entry holding score `1` for `en-US` is overwritten by a
later `1/3`-scoring candidate — the stored score is never consulted. -/
theorem c1_last_write_wins_witness :
    sbLookup (sbInsert [("en-US", (1, mkProfile "USD" "en-US"))] "en-US"
        (Rat.divInt 1 3, mkProfile "CAD" "en-US")) "en-US" =
      some (Rat.divInt 1 3, mkProfile "CAD" "en-US") :=
  (c1_scoreboard_last_write_wins "12.3" [mkProfile "USD" "en-US", mkProfile "CAD" "en-US"] []
      (sbFold "12.3" [mkProfile "USD" "en-US", mkProfile "CAD" "en-US"] []) (by decide)).2 _ _ _

/-- C1 counterexample: on `"12.3"` the USD and CAD en-US candidates score the
same `1/3`, and `detect` reports the LATER one (CAD), not the first-seen —
on equal scores the first-seen candidate is overwritten. -/
theorem c1_tie_overwrite_counterexample :
    evalCand (mkProfile "USD" "en-US") "12.3" =
      CandOut.scored (Rat.divInt 1 3, mkProfile "USD" "en-US") ∧
    evalCand (mkProfile "CAD" "en-US") "12.3" =
      CandOut.scored (Rat.divInt 1 3, mkProfile "CAD" "en-US") ∧
    (detect "12.3" { currencies := ["USD", "CAD"], languages := ["en"], countries := ["US"] }).map
        (Option.map (fun r => r.currencyInfo)) =
      Except.ok (some (some (mkProfile "CAD" "en-US"))) := by decide

/-- C2: a perfect round-trip match does return immediately with score exactly
1 and no further candidates evaluated — but the winner is the first exact
match in the LOCALE-major candidate order `buildCandidates` produces
(`Object.values` of the locale-keyed buckets, source lines 464-485), not the
claim's currency-major order. -/
theorem c2_first_exact_match_wins (formatted : String) (opts : DetectOptions)
    (cands : List Profile) (info : Profile)
    (hb : buildCandidates opts = Except.ok cands)
    (hf : cands.find? (isExact formatted) = some info) :
    detect formatted opts = Except.ok (some (exactResult info formatted)) ∧
      (exactResult info formatted).score = 1 := by
  refine ⟨?_, rfl⟩
  rw [detect_eq formatted opts cands hb, processCands_first_exact formatted cands [] hf]

/-- C2 witness: `"$1,234.56"` against USD,CAD × en-US — the USD profile is
the first exact match and `detect` returns it with score 1. -/
theorem c2_first_exact_match_wins_witness :
    detect "$1,234.56" { currencies := ["USD", "CAD"], languages := ["en"], countries := ["US"] } =
      Except.ok (some (exactResult (mkProfile "USD" "en-US") "$1,234.56")) ∧
    (exactResult (mkProfile "USD" "en-US") "$1,234.56").score = 1 :=
  c2_first_exact_match_wins "$1,234.56"
    { currencies := ["USD", "CAD"], languages := ["en"], countries := ["US"] }
    [mkProfile "USD" "en-US", mkProfile "CAD" "en-US"] (mkProfile "USD" "en-US")
    (by decide) (by decide)

/-- C2 counterexample: on `"C$1,234.56"` with USD,CAD × en-US,en-CA the first
exact match in currency-major order is USD/en-CA, but `detect` returns
CAD/en-US — candidates are iterated locale-major. -/
theorem c2_iteration_order_counterexample :
    (currencyMajorCands { currencies := ["USD", "CAD"], languages := ["en"], countries := ["US", "CA"] }).find? (isExact "C$1,234.56") =
      some (mkProfile "USD" "en-CA") ∧
    detect "C$1,234.56" { currencies := ["USD", "CAD"], languages := ["en"], countries := ["US", "CA"] } =
      Except.ok (some (exactResult (mkProfile "CAD" "en-US") "C$1,234.56")) ∧
    mkProfile "CAD" "en-US" ≠ mkProfile "USD" "en-CA" := by decide

/-- C3: the round-trip `strip (format n) = n` and the idempotent re-render
hold for every coherent profile at every amount the formatter can actually
emit — the integer cents `Rat.divInt c 100`.  (For amounts below cent
precision the formatter rounds and the round-trip fails; see the
counterexample.) -/
theorem c3_roundtrip_at_cents (p : Profile) (hp : ProfileCoherent p) (c : ℤ) :
    p.strip (p.formatNum (some (Rat.divInt c 100))) = some (Rat.divInt c 100) ∧
      p.format (p.formatNum (some (Rat.divInt c 100))) =
        p.formatNum (some (Rat.divInt c 100)) := by
  have hgs : GoodSpec p.formatterSpec := hp.2.2.2
  have hden : (Rat.divInt c 100).den ∣ 10 ^ 20 := den_divInt_100_dvd c
  have h1 : p.formatNum (some (Rat.divInt c 100)) =
      String.mk (p.formatterSpec.renderCents c) := by
    rw [Profile.formatNum, stripNum_some hp hden]
    simp only [LSpec.render]
    rw [round2cents_divInt_100]
  have h2 : p.strip (String.mk (p.formatterSpec.renderCents c)) =
      some (Rat.divInt c 100) := by
    rw [strip_pipeline_of_coherent hp]
    show parseNum (stripPipeline [p.formatterSpec.group] [p.formatterSpec.decimal]
      p.formatterSpec.symbol (p.formatterSpec.renderCents c)) = some (Rat.divInt c 100)
    rw [parse_strip_renderCents hgs c, Rat.divInt_eq_div]
    norm_num
  constructor
  · rw [h1]
    exact h2
  · rw [Profile.format, h1, h2]
    simp only [LSpec.render]
    rw [round2cents_divInt_100]

/-- C3 witness: the USD/en-US profile round-trips the cents amount
`1234.56`. -/
theorem c3_roundtrip_at_cents_witness :
    (mkProfile "USD" "en-US").strip
        ((mkProfile "USD" "en-US").formatNum (some (Rat.divInt 123456 100))) =
      some (Rat.divInt 123456 100) ∧
    (mkProfile "USD" "en-US").format
        ((mkProfile "USD" "en-US").formatNum (some (Rat.divInt 123456 100))) =
      (mkProfile "USD" "en-US").formatNum (some (Rat.divInt 123456 100)) :=
  c3_roundtrip_at_cents (mkProfile "USD" "en-US") (by decide) 123456

/-- C3 counterexample: formatting rounds to two fraction digits, so for
`n = 1234.509` the claimed `strip (format n) = n` fails: the USD/en-US
profile formats it as `"$1,234.51"` and strips that back to `1234.51`. -/
theorem c3_rounding_counterexample :
    (mkProfile "USD" "en-US").formatNum (some (Rat.divInt 1234509 1000)) = "$1,234.51" ∧
    (mkProfile "USD" "en-US").strip
        ((mkProfile "USD" "en-US").formatNum (some (Rat.divInt 1234509 1000))) =
      some (Rat.divInt 123451 100) ∧
    (Rat.divInt 123451 100 : ℚ) ≠ Rat.divInt 1234509 1000 := by decide

/-- C4: the decimal-separator rules hold as claimed only for candidates that
are not a perfect round-trip match: the perfect-match return (source lines
499-509) runs BEFORE the decimal disqualification (lines 539-545), so a
candidate whose decimal pattern matches more than once can still win outright
(see the counterexample).  For non-exact candidates: more than one decimal
match skips the candidate entirely, exactly one adds exactly 2 to the raw
score. -/
theorem c4_decimal_separator_rules (info : Profile) (formatted : String)
    (hnum : (info.strip formatted).isSome = true)
    (hne : info.formatNum (info.strip formatted) ≠ formatted) :
    (1 < decimalCount info formatted → evalCand info formatted = CandOut.skip) ∧
    (decimalCount info formatted = 1 →
      rawScore info formatted =
        groupPoints info formatted +
          symbolPoints info formatted (info.formatNum (info.strip formatted)) + 2) := by
  have h0 : (info.strip formatted).isNone = false := by
    cases hS : info.strip formatted
    · rw [hS] at hnum
      cases hnum
    · rfl
  constructor
  · intro hgt
    simp only [evalCand, h0, Bool.false_eq_true, if_false]
    rw [if_neg hne, if_pos hgt]
  · intro h1
    rw [rawScore, decimalPoints, if_pos (by rw [h1]; exact one_ne_zero), if_pos h1]
    ring

/-- C4 witness: `"B/.1234.56"` against the PAB/es-PA profile: the amount
strips to a number, the re-rendering differs, the decimal pattern matches
twice (the symbol contains a dot), and the candidate is skipped. -/
theorem c4_decimal_separator_rules_witness :
    evalCand (mkProfile "PAB" "es-PA") "B/.1234.56" = CandOut.skip :=
  (c4_decimal_separator_rules (mkProfile "PAB" "es-PA") "B/.1234.56"
      (by decide) (by decide)).1 (by decide)

/-- C4 counterexample: on the PAB/es-PA profile's own rendering
`"B/.1,234.56"` the decimal pattern matches twice, yet the candidate is NOT
discarded — it is returned as the perfect match, because the exact-match
return precedes the decimal disqualification. -/
theorem c4_perfect_match_decimal_counterexample :
    decimalCount (mkProfile "PAB" "es-PA") "B/.1,234.56" = 2 ∧
    evalCand (mkProfile "PAB" "es-PA") "B/.1,234.56" =
      CandOut.exact (exactResult (mkProfile "PAB" "es-PA") "B/.1,234.56") := by decide

/-- C5: the symbol locator checks `position == length - 1` BEFORE checking
for the no-match `-1`, so on an empty string (and an empty filtered parts
sequence) the absent symbol (`position = -1 = 0 - 1`) is classified
`trailing`, where the spec's rule says `missing`. -/
theorem c5_empty_input_trailing_bug :
    symbolPosition "$" (SymInput.str "") = SymbolPos.trailing ∧
    symbolPosition "$" (SymInput.parts []) = SymbolPos.trailing ∧
    indexOfSub "$".data "".data = none ∧
    (([] : List Part).findIdx? (fun p => p.type == "currency")) = none ∧
    classifyPos (-1) 0 = SymbolPos.trailing := by decide

/-- C6: `detect` does not raise once its candidates are constructible; when
no scoreboard entry is positive it falls back to the assumed pair (a
zero-score result built by stripping and reformatting through that profile,
even when the amount is `NaN`) or to the explicit no-result `none`.  But the
claim's "never raises" is false: candidate construction (`CurrencyInfo.get`,
source line 468) and the assume fallback (line 621) run the throwing
constructor, so an unsupported currency or invalid locale in the options
escapes `detect` as an error — see the counterexample. -/
theorem c6_no_raise_and_fallback (formatted : String) (opts : DetectOptions)
    (cands : List Profile) (sb : Scoreboard)
    (hb : buildCandidates opts = Except.ok cands)
    (hp : processCands formatted cands [] = Sum.inr sb)
    (hs : ∀ ent ∈ sb, ent.2.1 ≤ 0) :
    detect formatted opts =
      match opts.assume with
      | none => Except.ok none
      | some a =>
        if strTruthy a.locale ∧ strTruthy a.currency then
          (getProfile (a.currency.getD "") (a.locale.getD "")).map (fun info => some
            { initAcc formatted with
              locale := a.locale
              currency := a.currency
              currencyInfo := some info
              amount := some (info.strip formatted)
              formatted := some (info.formatNum (info.strip formatted)) })
        else Except.ok none := by
  rw [detect_eq formatted opts cands hb, hp]
  show (applyAssume formatted opts.assume
      (sb.foldl (reduceStep formatted) (initAcc formatted))).bind
    (fun result => Except.ok (if strTruthy result.locale then some result else none)) = _
  rw [foldl_reduceStep_nonpos formatted sb hs]
  rw [applyAssume.eq_def, if_neg (by simp [initAcc, strTruthy])]
  cases hA : opts.assume with
  | none => rfl
  | some a =>
    dsimp only
    by_cases hT : strTruthy a.locale ∧ strTruthy a.currency
    · rw [if_pos hT, if_pos hT]
      cases hg : getProfile (a.currency.getD "") (a.locale.getD "") with
      | error e => rfl
      | ok info =>
        simp only [Except.map, Except.bind, bind]
        rw [if_pos (show strTruthy a.locale from hT.1)]
    · rw [if_neg hT, if_neg hT]
      rfl

/-- C6 witness: `"abc"` with an assumed en-US/USD pair — every candidate
strips to `NaN`, the scoreboard stays empty, and `detect` returns the
zero-score fallback with a `NaN` amount and its `"$NaN"` re-rendering. -/
theorem c6_no_raise_and_fallback_witness :
    detect "abc" { currencies := ["USD"], languages := ["en"], countries := ["US"], assume := some { locale := some "en-US", currency := some "USD" } } =
      Except.ok (some { initAcc "abc" with
        locale := some "en-US"
        currency := some "USD"
        currencyInfo := some (mkProfile "USD" "en-US")
        amount := some ((mkProfile "USD" "en-US").strip "abc")
        formatted := some ((mkProfile "USD" "en-US").formatNum ((mkProfile "USD" "en-US").strip "abc")) }) := by
  have h := c6_no_raise_and_fallback "abc"
    { currencies := ["USD"], languages := ["en"], countries := ["US"], assume := some { locale := some "en-US", currency := some "USD" } }
    [mkProfile "USD" "en-US"] [] (by decide) (by decide) (by simp)
  rw [h]
  decide

/-- C6 counterexample: an unsupported currency in the options makes `detect`
raise (the claim says it never raises). -/
theorem c6_unsupported_currency_raises :
    detect "$1" { currencies := ["ZZZ"], languages := ["en"], countries := ["US"] } =
      Except.error (JsErr.typeError "Currency value ZZZ is not supported") := by decide

/-- C7: `CurrencyInfo.get` accepts a `doNotThrow` argument but its body is
`new this(currency, locale)` (source line 680), dropping it: with the
return-errors policy requested the error is still thrown, never returned —
the same failing call both ignores the chosen policy and raises, while the
constructor itself honours the policy. -/
theorem c7_get_ignores_throw_policy :
    getOutcome "ZZZ" "en-US" true =
      CtorResult.thrown (JsErr.typeError "Currency value ZZZ is not supported") ∧
    constructOutcome "ZZZ" "en-US" true =
      CtorResult.returned (JsErr.typeError "Currency value ZZZ is not supported") ∧
    (∀ doNotThrow : Bool, getOutcome "ZZZ" "en-US" doNotThrow =
      CtorResult.thrown (JsErr.typeError "Currency value ZZZ is not supported")) := by
  refine ⟨by decide, by decide, ?_⟩
  intro doNotThrow
  cases doNotThrow <;> decide

/-- C8: construction through the cache is idempotent — once a call returns a
profile, every later call for the same pair returns the reference-identical
profile and the identical state (so the Formatting Service is not invoked
again), until the key is evicted, after which the next call re-validates,
re-invokes the service (one more `svcCalls`) and caches a fresh instance
carrying the next object identity. -/
theorem c8_cache_idempotent_until_evicted (currency locale : String) (doN₁ doN₂ : Bool)
    (st st' : CacheSt) (p : Profile)
    (hv : checkForInputErrors currency locale = [])
    (h : constructSt currency locale doN₁ st = (CtorResult.ok p, st')) :
    constructSt currency locale doN₂ st' = (CtorResult.ok p, st') ∧
      constructSt currency locale doN₂ (evictSt currency locale st') =
        (CtorResult.ok { mkProfile currency locale with id := st'.nextId },
          { cache := (evictSt currency locale st').cache ++
              [(cacheKey currency locale, { mkProfile currency locale with id := st'.nextId })]
            nextId := st'.nextId + 1
            svcCalls := st'.svcCalls + 1 }) := by
  constructor
  · have h1 : cacheGet st' (cacheKey currency locale) = some p := by
      cases hG : cacheGet st (cacheKey currency locale) with
      | some q =>
        rw [constructSt, hG] at h
        obtain ⟨h2, h3⟩ := Prod.mk.inj h
        rw [← h3, hG, CtorResult.ok.inj h2]
      | none =>
        rw [constructSt, hG, hv] at h
        obtain ⟨h2, h3⟩ := Prod.mk.inj h
        have hfind : st.cache.find? (fun kv => kv.1 == cacheKey currency locale) = none := by
          cases hF : st.cache.find? (fun kv => kv.1 == cacheKey currency locale) with
        | none => rfl
        | some kv => rw [cacheGet, hF] at hG; cases hG
        rw [← h3, cacheGet]
        show ((st.cache ++ [(cacheKey currency locale,
          { mkProfile currency locale with id := st.nextId })]).find?
            (fun kv : String × Profile => kv.1 == cacheKey currency locale)).map
          (fun kv : String × Profile => kv.2) = some p
        rw [find?_append_of_none _ hfind]
        simp [CtorResult.ok.inj h2]
    rw [constructSt, h1]
  · rw [constructSt, cacheGet_evict_none, hv]
    rfl

/-- C8 witness: from the empty cache, constructing USD/en-US and calling
again returns the identical instance and state. -/
theorem c8_cache_idempotent_witness :
    constructSt "USD" "en-US" false
        { cache := [(cacheKey "USD" "en-US", mkProfile "USD" "en-US")], nextId := 1, svcCalls := 1 } =
      (CtorResult.ok (mkProfile "USD" "en-US"),
        { cache := [(cacheKey "USD" "en-US", mkProfile "USD" "en-US")], nextId := 1, svcCalls := 1 }) :=
  (c8_cache_idempotent_until_evicted "USD" "en-US" false false {}
      { cache := [(cacheKey "USD" "en-US", mkProfile "USD" "en-US")], nextId := 1, svcCalls := 1 }
      (mkProfile "USD" "en-US") (by decide) (by decide)).1

/-- C9: the perfect-match fast path (source lines 501-509) returns a result
object that carries no `original` key at all, although every other non-null
result does and the spec requires it; its score is exactly 1 as claimed. -/
theorem c9_perfect_match_missing_original :
    detect "£1,234.56" { currencies := ["GBP"], languages := ["en"], countries := ["GB"] } =
      Except.ok (some (exactResult (mkProfile "GBP" "en-GB") "£1,234.56")) ∧
    (exactResult (mkProfile "GBP" "en-GB") "£1,234.56").original = none ∧
    (exactResult (mkProfile "GBP" "en-GB") "£1,234.56").score = 1 ∧
    (initAcc "£1,234.56").original = some "£1,234.56" := by decide

/-- C10: the separator fields hold thunks that build a fresh zero-`lastIndex`
matcher on every call, so `strip` and the detect counts are pure: rerunning
them with any previously used matcher store returns the identical result and
leaves the store untouched — no match-position state flows between calls. -/
theorem c10_matcher_state_independence (p : Profile) (s : String) (st₁ st₂ : MatcherStore) :
    stripWithStore p s st₁ = (p.strip s, st₁) ∧
    (stripWithStore p s st₁).1 = (stripWithStore p s st₂).1 ∧
    detectCountsWithStore p s st₁ = ((groupCount p s, decimalCount p s, symbolCount p s), st₁) ∧
    (detectCountsWithStore p s st₁).1 = (detectCountsWithStore p s st₂).1 ∧
    (p.regexGroup ()).lastIndex = 0 ∧ (p.regexDecimal ()).lastIndex = 0 ∧
    (p.regexSymbol ()).lastIndex = 0 := by
  refine ⟨rfl, rfl, rfl, rfl, rfl, rfl, ?_⟩
  rw [Profile.regexSymbol]
  by_cases h : p.symbol.length < 2 <;> simp [h]

end Currencyinfo
